import Mathlib

/-!
Shallow embedding of the mancalamax core: the Mancala rule engine
(`src/game/mancala.rs`, default methods of the `Mancala` trait, instantiated at
the concrete `GameState` of `src/game/game_state.rs`) and the alpha-beta
minimax search engine (`src/minimax/algorithm.rs`, configuration defaults from
`src/minimax/builder.rs`).

Modelling conventions:
* `usize` values are `Nat`; no arithmetic here can overflow in Rust for the
  inputs considered, so plain `Nat` is faithful.
* Rust `f32` utilities are modelled by `FVal := WithBot (WithTop Int)`:
  the search only ever compares utilities and copies them, and every value fed
  in is either an exact small integer (the evaluator and heuristic are
  modelled as `Int`-valued, like the default store-differential) or one of the
  two infinities used to initialise `v`, `alpha` and `beta`; on that fragment
  `f32` ordering coincides with the `FVal` linear order and no NaN can arise.
* The engine state `start_time` / `max_time` is real-time behaviour; we model
  the configuration `max_time = None`, for which `time_exceeded()` is
  constantly false.  `max_depth = Some d` is modelled by a `fuel` argument
  equal to `max_depth - depth`, decremented where the Rust code increments
  `depth`.
* `state.make_move(m).unwrap()` inside the search: with the default move
  orderer every ordered move is valid (proved below), so the panicking branch
  is unreachable; it is modelled as `(s.makeMove m).getD s`.
-/

/-- The two players, `Player::One` and `Player::Two` of `src/game/mancala.rs`.
Indexing `[T; 2]` by a player maps `One` to index 0 and `Two` to index 1. -/
inductive Player where
  | one
  | two
deriving DecidableEq, Repr

/-- The player on the other side of the board (used where the Rust code writes
an inline `if side == Player::One { Player::Two } else { Player::One }`). -/
def Player.other : Player → Player
  | .one => .two
  | .two => .one

/-- A move: `Move::Pit(n)` (1-based pit selection) or `Move::Swap`. -/
inductive Move where
  | pit (n : Nat)
  | swap
deriving DecidableEq, Repr

/-- The concrete game state of `src/game/game_state.rs` (`GameState<N>`):
two pit rows, two stores, the ply counter, the player to move, and the
`player2_moved` flag.  The two rows of `board: [[usize; N]; 2]` are the fields
`board1` (index 0, Player One) and `board2` (index 1, Player Two). -/
structure GameState where
  board1 : List Nat
  board2 : List Nat
  store1 : Nat
  store2 : Nat
  ply : Nat
  turn : Player
  player2Moved : Bool
deriving DecidableEq, Repr

namespace GameState

/-- Row access `board()[player]`. -/
def row (s : GameState) : Player → List Nat
  | .one => s.board1
  | .two => s.board2

/-- Row update through `board_mut()[player]`. -/
def setRow (s : GameState) : Player → List Nat → GameState
  | .one, l => { s with board1 := l }
  | .two, l => { s with board2 := l }

/-- Store access `stores()[player]`. -/
def store (s : GameState) : Player → Nat
  | .one => s.store1
  | .two => s.store2

/-- Store increment `stores_mut()[player] += k`. -/
def addStore (s : GameState) : Player → Nat → GameState
  | .one, k => { s with store1 := s.store1 + k }
  | .two, k => { s with store2 := s.store2 + k }

/-- `Mancala::pits`: the number of pits per player, `board()[0].len()`. -/
def pits (s : GameState) : Nat := s.board1.length

/-- `Mancala::is_over`: true iff every pit of both rows is zero. -/
def isOver (s : GameState) : Bool :=
  s.board1.all (· == 0) && s.board2.all (· == 0)

/-- `Mancala::score`: the player's store count (as `isize`). -/
def score (s : GameState) (p : Player) : Int := (s.store p : Int)

/-- `Mancala::swap_allowed`: `current_turn() == Player::Two && ply() == 2`. -/
def swapAllowed (s : GameState) : Bool :=
  s.turn == Player.two && s.ply == 2

/-- `Mancala::valid_moves`: starts from `[Swap]` when the swap is allowed,
then for each pit of the current player holding more than 0 stones inserts
`Pit(i+1)` at the front of the vector. -/
def validMoves (s : GameState) : List Move :=
  let init : List Move := if s.swapAllowed then [Move.swap] else []
  (s.row s.turn).enum.foldl
    (fun acc ip => if 0 < ip.2 then Move.pit (ip.1 + 1) :: acc else acc) init

/-- `Mancala::switch_turn` (the state-update part). -/
def switchTurn (s : GameState) : GameState :=
  { s with turn := s.turn.other }

/-- `Mancala::rotate_board`: swap the two rows and the two stores. -/
def rotateBoard (s : GameState) : GameState :=
  { s with board1 := s.board2, board2 := s.board1,
           store1 := s.store2, store2 := s.store1 }

/-- `*new_state.ply_mut() += 1`. -/
def incPly (s : GameState) : GameState := { s with ply := s.ply + 1 }

/-- One sown stone: `new_state.board_mut()[side].as_mut()[pit] += 1`. -/
def placeStone (st : GameState) (side : Player) (pit : Nat) : GameState :=
  st.setRow side ((st.row side).set pit ((st.row side).getD pit 0 + 1))

/-- The capture test and capture block of `Mancala::make_move`, executed after
every sowing step: when the last sown stone has just landed in a pit of the
current mover holding exactly one stone, the mover captures that pit and the
directly opposite pit of the other row into their store, zeroing both pits.
`new_state.current_turn()` is unchanged during sowing, so it is `st.turn`. -/
def captureCheck (st : GameState) (side : Player) (pit : Nat)
    (lastStone : Bool) : GameState :=
  if lastStone && side == st.turn && (st.row side).getD pit 0 == 1 then
    let toCapture : Nat × Nat :=
      if side == Player.one then (pit, st.pits - pit - 1)
      else (st.pits - pit - 1, pit)
    let st1 := st.addStore side ((st.row Player.one).getD toCapture.1 0)
    let st2 := st1.addStore side ((st1.row Player.two).getD toCapture.2 0)
    let st3 := st2.setRow Player.one ((st2.row Player.one).set toCapture.1 0)
    st3.setRow Player.two ((st3.row Player.two).set toCapture.2 0)
  else st

/-- The sowing loop `while i < stones` of `Mancala::make_move`, as a recursion
on the number of stones still to sow (`rem = stones - i`); `mover` is
`self.current_turn()`.  When the walk reaches position `pits` on the mover's
side, one stone goes to the mover's store and, unless it was the last stone,
the next stone is placed in pit 0 of the other row within the same iteration
(the extra `i += 1` of the Rust code, here `rem` dropping by two).  The result
carries the final `(state, side, pit, go_again)`. -/
def sow (mover : Player) : Nat → GameState → Player → Nat → Bool →
    GameState × Player × Nat × Bool
  | 0, st, side, pit, goAgain => (st, side, pit, goAgain)
  | 1, st, side, pit, goAgain =>
    -- the iteration sowing the final stone (`last_stone` holds)
    if pit != st.pits then
      let st1 := placeStone st side pit
      let st2 := captureCheck st1 side pit true
      (st2, side, pit + 1, goAgain)
    else if side == mover then
      -- the final stone lands in the mover's store: `go_again` is set
      let st1 := st.addStore side 1
      let side1 := side.other
      let st2 := captureCheck st1 side1 0 true
      (st2, side1, 1, true)
    else
      let side1 := side.other
      let st1 := placeStone st side1 0
      let st2 := captureCheck st1 side1 0 true
      (st2, side1, 1, goAgain)
  | rem+2, st, side, pit, goAgain =>
    if pit != st.pits then
      let st1 := placeStone st side pit
      let st2 := captureCheck st1 side pit false
      sow mover (rem+1) st2 side (pit + 1) goAgain
    else if side == mover then
      -- one stone to the mover's store (`go_again = last_stone` is false
      -- here), then the next stone to pit 0 of the other row within the same
      -- iteration: the extra `i += 1` of the Rust loop, two stones consumed
      let st1 := st.addStore side 1
      let side1 := side.other
      let st2 := placeStone st1 side1 0
      let st3 := captureCheck st2 side1 0 false
      sow mover rem st3 side1 1 false
    else
      let side1 := side.other
      let st1 := placeStone st side1 0
      let st2 := captureCheck st1 side1 0 false
      sow mover (rem+1) st2 side1 1 goAgain

/-- The end-of-board check of `Mancala::make_move`: if either row sums to
zero, the owner of the other row sweeps every remaining stone of their own row
into their own store (`final_stone_recipient`; row 0 empty gives index 1,
Player Two, and row 1 empty gives index 0, Player One). -/
def sweep (st : GameState) : GameState :=
  let finalStoneRecipient : Option Player :=
    if st.board1.sum == 0 then some Player.two
    else if st.board2.sum == 0 then some Player.one
    else none
  match finalStoneRecipient with
  | none => st
  | some winner =>
    (List.range st.pits).foldl
      (fun acc pit =>
        let acc1 := acc.addStore winner ((acc.row winner).getD pit 0)
        acc1.setRow winner ((acc1.row winner).set pit 0))
      st

/-- The `final_stone_recipient` value computed by the end-of-board check of
`Mancala::make_move`: the player who sweeps their own remaining row, when
either row is empty (row 0 empty gives Player Two, row 1 empty gives Player
One), and `none` when both rows still hold stones. -/
def finalRecipient (st : GameState) : Option Player :=
  if st.board1.sum == 0 then some Player.two
  else if st.board2.sum == 0 then some Player.one
  else none

/-- `Mancala::make_move`: the default Kalah-variant transition.  Returns
`none` for a rejected move, otherwise the successor state. -/
def makeMove (s : GameState) (selection : Move) : Option GameState :=
  match selection with
  | Move.swap =>
    if !s.swapAllowed then none
    else some s.rotateBoard.switchTurn.incPly
  | Move.pit n =>
    if n < 1 || s.pits < n then none
    else
      let side := s.turn
      let stones := (s.row side).getD (n - 1) 0
      let s1 := s.setRow side ((s.row side).set (n - 1) 0)
      if stones == 0 then none
      else
        let res := sow s.turn stones s1 side n false
        let goAgain := res.2.2.2
        let st1 := sweep res.1
        let st2 := if !goAgain then st1.switchTurn else st1
        some st2.incPly

/-- Total stone count: `sum(rows[0]) + sum(rows[1]) + stores[0] + stores[1]`. -/
def total (s : GameState) : Nat :=
  s.board1.sum + s.board2.sum + s.store1 + s.store2

end GameState

/-- The default starting state: 6 pits of 4 stones per player, empty stores,
ply 1, Player One to move (`Default for GameState<6>`). -/
def defaultStart : GameState :=
  { board1 := [4, 4, 4, 4, 4, 4], board2 := [4, 4, 4, 4, 4, 4],
    store1 := 0, store2 := 0, ply := 1, turn := Player.one,
    player2Moved := false }

/-- Sanity check of the sowing transcription against the opening-move scenario
of the specification: from the default start, `Pit(3)` leaves Player One with
row `[4,4,0,5,5,5]`, store 1, a bonus turn and ply 2. -/
theorem sanity_opening_move :
    defaultStart.makeMove (Move.pit 3) =
      some { board1 := [4, 4, 0, 5, 5, 5], board2 := [4, 4, 4, 4, 4, 4],
             store1 := 1, store2 := 0, ply := 2, turn := Player.one,
             player2Moved := false } := by decide


/-! The search engine of `src/minimax/algorithm.rs`. -/

/-- Search utilities: the value domain of the `f32` utilities actually used by
the search, namely exact integers together with `f32::NEG_INFINITY` (the
bottom element) and `f32::INFINITY` (the top element). -/
abbrev FVal := WithBot (WithTop Int)

/-- An integer utility as an `FVal`. -/
def FVal.ofInt (q : Int) : FVal := ((q : WithTop Int) : WithBot (WithTop Int))

/-- A `Minimax` search configuration (`optimize_for`, `move_orderer`,
`evaluator`, `heuristic`).  `max_depth = Some d` is modelled by the fuel
argument of the search functions, and `max_time = None` by the absence of a
time check; `start_time` is per-invocation bookkeeping with no effect on the
result under `max_time = None`. -/
structure MinimaxCfg where
  optimizeFor : Player
  moveOrderer : GameState → List Move
  evaluator : GameState → Player → Int
  heuristic : GameState → Player → Int

/-- `Minimax::evaluate`: the evaluator at `optimize_for`. -/
def evaluate (cfg : MinimaxCfg) (s : GameState) : FVal :=
  FVal.ofInt (cfg.evaluator s cfg.optimizeFor)

/-- `Minimax::get_heuristic`: the heuristic at `optimize_for`. -/
def getHeuristic (cfg : MinimaxCfg) (s : GameState) : FVal :=
  FVal.ofInt (cfg.heuristic s cfg.optimizeFor)

/-- The `for m in self.order_moves(state)` loop of `Minimax::max_value`,
abstracted over the recursive child evaluation `child` (which receives the
current `alpha` and the move).  A strictly greater child value updates `v`,
`best_move` and `alpha` (`alpha = if alpha > v { alpha } else { v }` is
`max`); then `v >= beta` returns early. -/
def maxLoopF (beta : FVal) (child : FVal → Move → FVal) :
    List Move → FVal → FVal → Option Move → Option Move × FVal
  | [], _, v, best => (best, v)
  | m :: rest, alpha, v, best =>
    let v2 := child alpha m
    if v < v2 then
      if beta ≤ v2 then (some m, v2)
      else maxLoopF beta child rest (max alpha v2) v2 (some m)
    else
      if beta ≤ v then (best, v)
      else maxLoopF beta child rest alpha v best

/-- The move loop of `Minimax::min_value`, dual to `maxLoopF`: a strictly
smaller child value updates `v`, `best_move` and `beta`; then `v <= alpha`
returns early. -/
def minLoopF (alpha : FVal) (child : FVal → Move → FVal) :
    List Move → FVal → FVal → Option Move → Option Move × FVal
  | [], _, v, best => (best, v)
  | m :: rest, beta, v, best =>
    let v2 := child beta m
    if v2 < v then
      if v2 ≤ alpha then (some m, v2)
      else minLoopF alpha child rest (min beta v2) v2 (some m)
    else
      if v ≤ alpha then (best, v)
      else minLoopF alpha child rest beta v best

mutual

/-- `Minimax::max_value` with `max_time = None` and `max_depth = Some d`;
`fuel` is `d - depth`, so `depth >= d` is `fuel = 0`.  A terminal state is
evaluated by the evaluator at any depth; at the depth limit a non-terminal
state is evaluated by the heuristic.  Otherwise each ordered move is expanded:
a child whose turn is unchanged (a bonus turn) stays a maximizing node,
otherwise the roles flip. -/
def maxValue (cfg : MinimaxCfg) : Nat → GameState → FVal → FVal →
    Option Move × FVal
  | 0, s, _, _ =>
    if s.isOver then (none, evaluate cfg s) else (none, getHeuristic cfg s)
  | fuel+1, s, alpha, beta =>
    if s.isOver then (none, evaluate cfg s)
    else
      maxLoopF beta
        (fun a m =>
          let ns := (s.makeMove m).getD s
          if ns.turn == s.turn then (maxValue cfg fuel ns a beta).2
          else (minValue cfg fuel ns a beta).2)
        (cfg.moveOrderer s) alpha ⊥ none

/-- `Minimax::min_value`, dual to `maxValue`. -/
def minValue (cfg : MinimaxCfg) : Nat → GameState → FVal → FVal →
    Option Move × FVal
  | 0, s, _, _ =>
    if s.isOver then (none, evaluate cfg s) else (none, getHeuristic cfg s)
  | fuel+1, s, alpha, beta =>
    if s.isOver then (none, evaluate cfg s)
    else
      minLoopF alpha
        (fun b m =>
          let ns := (s.makeMove m).getD s
          if ns.turn == s.turn then (minValue cfg fuel ns alpha b).2
          else (maxValue cfg fuel ns alpha b).2)
        (cfg.moveOrderer s) beta ⊤ none

end

/-- The child evaluation used by `max_value` for one move: apply the move
(`.unwrap()` modelled by `getD`), keep the maximizing role on a bonus turn,
otherwise switch to minimizing. -/
def childMax (cfg : MinimaxCfg) (fuel : Nat) (s : GameState) (beta : FVal)
    (a : FVal) (m : Move) : FVal :=
  let ns := (s.makeMove m).getD s
  if ns.turn == s.turn then (maxValue cfg fuel ns a beta).2
  else (minValue cfg fuel ns a beta).2

/-- The child evaluation used by `min_value` for one move. -/
def childMin (cfg : MinimaxCfg) (fuel : Nat) (s : GameState) (alpha : FVal)
    (b : FVal) (m : Move) : FVal :=
  let ns := (s.makeMove m).getD s
  if ns.turn == s.turn then (minValue cfg fuel ns alpha b).2
  else (maxValue cfg fuel ns alpha b).2

/-- `Minimax::search_utility`: run `max_value` from the root with
`alpha = -inf`, `beta = +inf`; return the `(move, utility)` pair unless no
move was produced. -/
def searchUtility (cfg : MinimaxCfg) (s : GameState) (maxDepth : Nat) :
    Option (Move × FVal) :=
  match maxValue cfg maxDepth s ⊥ ⊤ with
  | (none, _) => none
  | (some m, u) => some (m, u)

/-- `Minimax::search`: the move component of `search_utility`. -/
def search (cfg : MinimaxCfg) (s : GameState) (maxDepth : Nat) : Option Move :=
  (searchUtility cfg s maxDepth).map Prod.fst

/-- The default `move_orderer` of `MinimaxBuilder::default`
(`src/minimax/builder.rs`): same construction as `valid_moves`, front
insertion over the enumerated row after an initial `[Swap]` when allowed. -/
def defaultMoveOrderer (s : GameState) : List Move :=
  let init : List Move := if s.swapAllowed then [Move.swap] else []
  (s.row s.turn).enum.foldl
    (fun acc ip => if 0 < ip.2 then Move.pit (ip.1 + 1) :: acc else acc) init

/-- The default `evaluator` (and `heuristic`) of `MinimaxBuilder::default`:
the store differential oriented toward the given player. -/
def defaultEvaluator (s : GameState) (p : Player) : Int :=
  match p with
  | Player.one => s.score Player.one - s.score Player.two
  | Player.two => s.score Player.two - s.score Player.one

/-- The configuration produced by `MinimaxBuilder::default().build()`
(modulo `max_depth = Some 12`, which is the fuel argument of the search
functions, and `max_time = None`). -/
def defaultCfg : MinimaxCfg :=
  { optimizeFor := Player.one, moveOrderer := defaultMoveOrderer,
    evaluator := defaultEvaluator, heuristic := defaultEvaluator }

/-! The exhaustive, unpruned reference search.  Modelled from the spec: the
"exhaustive (unpruned) full-depth search" of the Search soundness property,
with the same move order, evaluator, heuristic and depth budget as the pruned
search, but with no alpha-beta window: a node's value is simply the max (min)
of all child values. -/

/-- Unpruned move loop of a maximizing node: fold the children by `max`. -/
def fullMaxLoopF (child : Move → FVal) : List Move → FVal → FVal
  | [], v => v
  | m :: rest, v => fullMaxLoopF child rest (max v (child m))

/-- Unpruned move loop of a minimizing node: fold the children by `min`. -/
def fullMinLoopF (child : Move → FVal) : List Move → FVal → FVal
  | [], v => v
  | m :: rest, v => fullMinLoopF child rest (min v (child m))

mutual

/-- Modelled from the spec: unpruned maximizing node value, same structure as
`maxValue` but with no alpha-beta window or early return. -/
def fullMax (cfg : MinimaxCfg) : Nat → GameState → FVal
  | 0, s => if s.isOver then evaluate cfg s else getHeuristic cfg s
  | fuel+1, s =>
    if s.isOver then evaluate cfg s
    else
      fullMaxLoopF
        (fun m =>
          let ns := (s.makeMove m).getD s
          if ns.turn == s.turn then fullMax cfg fuel ns
          else fullMin cfg fuel ns)
        (cfg.moveOrderer s) ⊥

/-- Modelled from the spec: unpruned minimizing node value. -/
def fullMin (cfg : MinimaxCfg) : Nat → GameState → FVal
  | 0, s => if s.isOver then evaluate cfg s else getHeuristic cfg s
  | fuel+1, s =>
    if s.isOver then evaluate cfg s
    else
      fullMinLoopF
        (fun m =>
          let ns := (s.makeMove m).getD s
          if ns.turn == s.turn then fullMin cfg fuel ns
          else fullMax cfg fuel ns)
        (cfg.moveOrderer s) ⊤

end

/-- Modelled from the spec: the documented enumeration order of `validMoves`
and of the default move orderer, "descending pit index, with Swap last" —
one `Pit(j+1)` for every pit index `j` (taken in descending order) holding
more than 0 stones, followed by `Swap` exactly when the swap is allowed. -/
def specMoveOrder (s : GameState) : List Move :=
  ((List.range (s.row s.turn).length).reverse.filterMap
    (fun j => if 0 < (s.row s.turn).getD j 0 then some (Move.pit (j + 1))
              else none))
  ++ (if s.swapAllowed then [Move.swap] else [])

/-- A state whose two rows are either both empty of stones or both holding
stones.  Every state produced by a pit move has this shape (the end-of-board
sweep empties the other row as soon as one row empties), and it is what rules
out unbounded `-inf` / `+inf` values inside the search. -/
def GameState.balanced (s : GameState) : Prop :=
  (s.board1.sum = 0 ∧ s.board2.sum = 0) ∨ (0 < s.board1.sum ∧ 0 < s.board2.sum)

/-- Clamping a value into the alpha-beta window; the invariant shape in which
a fail-soft alpha-beta result agrees with the unpruned value. -/
def clamp (alpha beta x : FVal) : FVal := max alpha (min beta x)

/-- The parts of a state untouched by the sowing loop: the turn, the ply, the
`player2_moved` flag and the lengths of both rows. -/
def sameShape (s t : GameState) : Prop :=
  t.turn = s.turn ∧ t.ply = s.ply ∧ t.player2Moved = s.player2Moved ∧
  t.board1.length = s.board1.length ∧ t.board2.length = s.board2.length

/-! Helper lemmas about the list primitives used by the rule engine. -/

theorem sum_set_add_getD (l : List Nat) (i x : Nat) (h : i < l.length) :
    (l.set i x).sum + l.getD i 0 = l.sum + x := by
  induction l generalizing i with
  | nil => simp at h
  | cons a as ih =>
    cases i with
    | zero => simp [List.sum_cons]; omega
    | succ j =>
      simp only [List.set_cons_succ, List.sum_cons, List.getD_cons_succ]
      have := ih j (by simpa using h)
      omega

theorem sum_set_zero (l : List Nat) (i : Nat) :
    (l.set i 0).sum + l.getD i 0 = l.sum := by
  rcases Nat.lt_or_ge i l.length with h | h
  · have := sum_set_add_getD l i 0 h
    omega
  · rw [List.set_eq_of_length_le h, List.getD_eq_default _ _ h]
    omega

theorem sum_set_incr (l : List Nat) (i : Nat) (h : i < l.length) :
    (l.set i (l.getD i 0 + 1)).sum = l.sum + 1 := by
  have := sum_set_add_getD l i (l.getD i 0 + 1) h
  omega

theorem foldl_pit_insert (xs : List (Nat × Nat)) (init : List Move) :
    xs.foldl (fun acc ip => if 0 < ip.2 then Move.pit (ip.1 + 1) :: acc else acc)
        init
      = (xs.filterMap
          (fun ip => if 0 < ip.2 then some (Move.pit (ip.1 + 1)) else none)).reverse
        ++ init := by
  induction xs generalizing init with
  | nil => simp
  | cons x xs ih =>
    simp only [List.foldl_cons, List.filterMap_cons]
    by_cases h : 0 < x.2
    · simp [h, ih, List.append_assoc]
    · simp [h, ih]

theorem enumFrom_filterMap_desc (l : List Nat) :
    ∀ k, (List.enumFrom k l).filterMap
        (fun ip => if 0 < ip.2 then some (Move.pit (ip.1 + 1)) else none)
      = (List.range l.length).filterMap
        (fun j => if 0 < l.getD j 0 then some (Move.pit (k + j + 1)) else none) := by
  induction l with
  | nil => intro k; simp
  | cons x xs ih =>
    intro k
    have harith : ∀ j : Nat, k + (j + 1) + 1 = k + 1 + j + 1 := by omega
    have hfun : ((fun j => if 0 < (x :: xs).getD j 0
          then some (Move.pit (k + j + 1)) else none) ∘ (· + 1))
        = (fun j => if 0 < xs.getD j 0
            then some (Move.pit (k + 1 + j + 1)) else none) := by
      funext j
      simp only [Function.comp, List.getD_cons_succ, harith]
    simp only [List.enumFrom, List.filterMap_cons, List.length_cons,
      List.range_succ_eq_map, List.filterMap_map, hfun, ih (k + 1),
      List.getD_cons_zero]

theorem validMoves_eq_specMoveOrder (s : GameState) :
    s.validMoves = specMoveOrder s := by
  show (s.row s.turn).enum.foldl _ _ = _
  rw [show (s.row s.turn).enum = List.enumFrom 0 (s.row s.turn) from rfl,
    foldl_pit_insert, enumFrom_filterMap_desc]
  unfold specMoveOrder
  simp only [Nat.zero_add]
  rw [List.filterMap_reverse]

/-- C9: `valid_moves` lists one `Pit(i)` per non-empty pit of the current
player in descending pit-index order followed by `Swap` last when the swap is
allowed (`specMoveOrder`), and the default move orderer built by
`MinimaxBuilder::default` returns exactly the same sequence as `valid_moves`
on every state. -/
theorem c9_default_orderer_is_valid_moves_desc (s : GameState) :
    defaultMoveOrderer s = s.validMoves ∧ s.validMoves = specMoveOrder s :=
  ⟨rfl, validMoves_eq_specMoveOrder s⟩

/-! Membership in `validMoves`, and success of `makeMove`. -/

theorem swap_not_mem_desc (s : GameState) :
    Move.swap ∉ ((List.range (s.row s.turn).length).reverse.filterMap
      (fun j => if 0 < (s.row s.turn).getD j 0 then some (Move.pit (j + 1))
                else none)) := by
  intro hmem
  rcases List.mem_filterMap.mp hmem with ⟨j, _, hj⟩
  by_cases h : 0 < (s.row s.turn).getD j 0 <;> simp [h] at hj

theorem swap_mem_validMoves (s : GameState) :
    Move.swap ∈ s.validMoves ↔ s.swapAllowed = true := by
  rw [validMoves_eq_specMoveOrder]
  unfold specMoveOrder
  rw [List.mem_append]
  constructor
  · rintro (h | h)
    · exact absurd h (swap_not_mem_desc s)
    · cases hsw : s.swapAllowed
      · simp [hsw] at h
      · rfl
  · intro h
    right
    simp [h]

theorem pit_mem_validMoves (s : GameState) (n : Nat) :
    Move.pit n ∈ s.validMoves ↔
      1 ≤ n ∧ n - 1 < (s.row s.turn).length ∧
        0 < (s.row s.turn).getD (n - 1) 0 := by
  rw [validMoves_eq_specMoveOrder]
  unfold specMoveOrder
  rw [List.mem_append]
  constructor
  · rintro (h | h)
    · rcases List.mem_filterMap.mp h with ⟨j, hj, hjeq⟩
      rw [List.mem_reverse, List.mem_range] at hj
      by_cases hpos : 0 < (s.row s.turn).getD j 0
      · simp only [hpos, if_true, Option.some.injEq, Move.pit.injEq] at hjeq
        refine ⟨by omega, by omega, ?_⟩
        have hn : n - 1 = j := by omega
        rw [hn]
        exact hpos
      · rw [if_neg hpos] at hjeq
        exact Option.noConfusion hjeq
    · cases hsw : s.swapAllowed <;> simp [hsw] at h
  · rintro ⟨h1, h2, h3⟩
    left
    apply List.mem_filterMap.mpr
    refine ⟨n - 1, ?_, ?_⟩
    · rw [List.mem_reverse, List.mem_range]
      exact h2
    · simp only [h3, if_true, Option.some.injEq, Move.pit.injEq]
      omega

theorem makeMove_swap_isSome (s : GameState) :
    (s.makeMove Move.swap).isSome = s.swapAllowed := by
  unfold GameState.makeMove
  cases h : s.swapAllowed <;> simp [h]

theorem makeMove_pit_none_iff (s : GameState) (n : Nat) :
    s.makeMove (Move.pit n) = none ↔
      n < 1 ∨ s.pits < n ∨ (s.row s.turn).getD (n - 1) 0 = 0 := by
  unfold GameState.makeMove
  by_cases h1 : (n < 1 : Prop)
  · simp [h1]
  · by_cases h2 : (s.pits < n : Prop)
    · simp [h1, h2]
    · by_cases h3 : (s.row s.turn).getD (n - 1) 0 = 0
      · simp [h1, h2, h3]
      · simp [h1, h2, h3]

theorem makeMove_pit_isSome_iff (s : GameState) (n : Nat) :
    (s.makeMove (Move.pit n)).isSome = true ↔
      1 ≤ n ∧ n ≤ s.pits ∧ 0 < (s.row s.turn).getD (n - 1) 0 := by
  rw [Option.isSome_iff_ne_none, Ne, makeMove_pit_none_iff]
  omega

theorem row_turn_length (s : GameState)
    (hlen : s.board1.length = s.board2.length) :
    (s.row s.turn).length = s.pits := by
  cases h : s.turn <;> simp [GameState.row, GameState.pits, hlen]

/-- C3: for every state (with the two rows of equal length, the documented
shape invariant of `GameState`), a move succeeds under `make_move` exactly
when `valid_moves` lists it; `make_move(Pit(n))` fails exactly when `n` is
outside `[1, N]` or the current player's pit `n` is empty, and
`make_move(Swap)` fails exactly when `swap_allowed` is false. -/
theorem c3_legality (s : GameState)
    (hlen : s.board1.length = s.board2.length) :
    (∀ m : Move, m ∈ s.validMoves ↔ (s.makeMove m).isSome = true)
    ∧ (∀ n : Nat, s.makeMove (Move.pit n) = none ↔
        (n < 1 ∨ s.pits < n ∨ (s.row s.turn).getD (n - 1) 0 = 0))
    ∧ (s.makeMove Move.swap = none ↔ s.swapAllowed = false) := by
  refine ⟨?_, makeMove_pit_none_iff s, ?_⟩
  · intro m
    cases m with
    | pit n =>
      rw [pit_mem_validMoves, makeMove_pit_isSome_iff, row_turn_length s hlen]
      omega
    | swap =>
      rw [swap_mem_validMoves, makeMove_swap_isSome]
  · rw [← Option.not_isSome_iff_eq_none, makeMove_swap_isSome]
    cases h : s.swapAllowed <;> simp

/-- Witness for C3 at the default starting state. -/
theorem c3_legality_witness :
    (∀ m : Move, m ∈ defaultStart.validMoves ↔
        (defaultStart.makeMove m).isSome = true)
    ∧ (∀ n : Nat, defaultStart.makeMove (Move.pit n) = none ↔
        (n < 1 ∨ defaultStart.pits < n ∨
          (defaultStart.row defaultStart.turn).getD (n - 1) 0 = 0))
    ∧ (defaultStart.makeMove Move.swap = none ↔
        defaultStart.swapAllowed = false) :=
  c3_legality defaultStart (by decide)

/-! Terminal states. -/

theorem isOver_iff_sums_zero (s : GameState) :
    s.isOver = true ↔ s.board1.sum = 0 ∧ s.board2.sum = 0 := by
  simp [GameState.isOver, List.all_eq_true, List.sum_eq_zero_iff]

/-- C5 counterexample: a state with both rows zero on which `valid_moves` is
not empty.  The state is in fact reachable: from the one-pit board `[2] / [0]`
Player One's only move ends the game with the sweep giving Player Two a stone,
yet at the resulting ply 2 with Player Two to move the swap move is allowed,
so the finished game still offers `[Swap]`. -/
theorem c5_counterexample :
    (GameState.mk [2] [0] 0 0 1 Player.one false).makeMove (Move.pit 1)
        = some (GameState.mk [0] [0] 1 1 2 Player.two false)
    ∧ (GameState.mk [0] [0] 1 1 2 Player.two false).isOver = true
    ∧ (GameState.mk [0] [0] 1 1 2 Player.two false).validMoves
        = [Move.swap] := by decide

/-- C5 amended: `is_over` holds iff both rows sum to zero; and on a state
where `is_over` holds, `valid_moves` is empty unless the swap move is allowed
(Player Two to move at ply 2), in which case it is exactly `[Swap]`. -/
theorem c5_over_moves (s : GameState) :
    (s.isOver = true ↔ s.board1.sum = 0 ∧ s.board2.sum = 0)
    ∧ (s.isOver = true →
        s.validMoves = if s.swapAllowed then [Move.swap] else []) := by
  refine ⟨isOver_iff_sums_zero s, fun hov => ?_⟩
  rw [validMoves_eq_specMoveOrder]
  unfold specMoveOrder
  have hz : ∀ j, (s.row s.turn).getD j 0 = 0 := by
    intro j
    rcases (isOver_iff_sums_zero s).mp hov with ⟨h1, h2⟩
    rcases Nat.lt_or_ge j (s.row s.turn).length with hj | hj
    · have hmem : (s.row s.turn).getD j 0 ∈ s.row s.turn := by
        rw [List.getD_eq_getElem _ _ hj]
        exact List.getElem_mem hj
      cases ht : s.turn <;> rw [ht] at hmem
      · exact (List.sum_eq_zero_iff.mp h1) _ hmem
      · exact (List.sum_eq_zero_iff.mp h2) _ hmem
    · exact List.getD_eq_default _ _ hj
  have hemp : (List.range (s.row s.turn).length).reverse.filterMap
      (fun j => if 0 < (s.row s.turn).getD j 0 then some (Move.pit (j + 1))
                else none) = [] := by
    rw [List.filterMap_eq_nil_iff]
    intro j _
    rw [hz j]
    simp
  rw [hemp, List.nil_append]

/-- Witness for the amended C5 at a concrete finished state. -/
theorem c5_over_moves_witness :
    ((GameState.mk [0] [0] 1 1 2 Player.two false).isOver = true ↔
      (GameState.mk [0] [0] 1 1 2 Player.two false).board1.sum = 0 ∧
      (GameState.mk [0] [0] 1 1 2 Player.two false).board2.sum = 0)
    ∧ (GameState.mk [0] [0] 1 1 2 Player.two false).validMoves
        = (if (GameState.mk [0] [0] 1 1 2 Player.two false).swapAllowed
           then [Move.swap] else []) :=
  ⟨(c5_over_moves _).1, (c5_over_moves _).2 (by decide)⟩

/-! Shape preservation through the sowing machinery. -/

theorem sameShape_refl (s : GameState) : sameShape s s :=
  ⟨rfl, rfl, rfl, rfl, rfl⟩

theorem sameShape_trans {a b c : GameState} (h1 : sameShape a b)
    (h2 : sameShape b c) : sameShape a c := by
  obtain ⟨x1, x2, x3, x4, x5⟩ := h1
  obtain ⟨y1, y2, y3, y4, y5⟩ := h2
  exact ⟨y1.trans x1, y2.trans x2, y3.trans x3, y4.trans x4, y5.trans x5⟩

theorem addStore_sameShape (st : GameState) (p : Player) (k : Nat) :
    sameShape st (st.addStore p k) := by
  cases p <;> simp [sameShape, GameState.addStore]

theorem placeStone_sameShape (st : GameState) (side : Player) (pit : Nat) :
    sameShape st (GameState.placeStone st side pit) := by
  cases side <;>
    simp [sameShape, GameState.placeStone, GameState.setRow, GameState.row,
      List.length_set]

theorem captureCheck_sameShape (st : GameState) (side : Player) (pit : Nat)
    (last : Bool) : sameShape st (GameState.captureCheck st side pit last) := by
  unfold GameState.captureCheck
  split
  · cases side <;>
      simp [sameShape, GameState.addStore, GameState.setRow, GameState.row,
        List.length_set]
  · exact sameShape_refl st

theorem sow_sameShape (mover : Player) :
    ∀ (rem : Nat) (st : GameState) (side : Player) (pit : Nat) (g : Bool),
      sameShape st (GameState.sow mover rem st side pit g).1 := by
  intro rem
  induction rem using Nat.strong_induction_on with
  | _ rem ih =>
    match rem with
    | 0 => intro st side pit g; exact sameShape_refl st
    | 1 =>
      intro st side pit g
      unfold GameState.sow
      split
      · exact sameShape_trans (placeStone_sameShape ..) (captureCheck_sameShape ..)
      · split
        · exact sameShape_trans (addStore_sameShape ..) (captureCheck_sameShape ..)
        · exact sameShape_trans (placeStone_sameShape ..) (captureCheck_sameShape ..)
    | rem+2 =>
      intro st side pit g
      unfold GameState.sow
      split
      · exact sameShape_trans
          (sameShape_trans (placeStone_sameShape ..) (captureCheck_sameShape ..))
          (ih (rem+1) (by omega) ..)
      · split
        · exact sameShape_trans
            (sameShape_trans (addStore_sameShape ..)
              (sameShape_trans (placeStone_sameShape ..) (captureCheck_sameShape ..)))
            (ih rem (by omega) ..)
        · exact sameShape_trans
            (sameShape_trans (placeStone_sameShape ..) (captureCheck_sameShape ..))
            (ih (rem+1) (by omega) ..)

theorem sweepFold_sameShape (winner : Player) :
    ∀ (l : List Nat) (st : GameState),
      sameShape st (l.foldl
        (fun acc pit =>
          let acc1 := acc.addStore winner ((acc.row winner).getD pit 0)
          acc1.setRow winner ((acc1.row winner).set pit 0)) st) := by
  intro l
  induction l with
  | nil => intro st; exact sameShape_refl st
  | cons x xs ih =>
    intro st
    rw [List.foldl_cons]
    refine sameShape_trans ?_ (ih _)
    show sameShape st
      ((st.addStore winner ((st.row winner).getD x 0)).setRow winner
        (((st.addStore winner ((st.row winner).getD x 0)).row winner).set x 0))
    refine sameShape_trans
      (addStore_sameShape st winner ((st.row winner).getD x 0)) ?_
    cases winner <;>
      simp [sameShape, GameState.setRow, GameState.row, GameState.addStore,
        List.length_set]

theorem sweep_sameShape (st : GameState) :
    sameShape st st.sweep := by
  unfold GameState.sweep
  by_cases h1 : (st.board1.sum == 0) = true
  · simp only [h1, if_true]
    exact sweepFold_sameShape Player.two _ st
  · by_cases h2 : (st.board2.sum == 0) = true
    · simp only [if_neg h1, h2, if_true]
      exact sweepFold_sameShape Player.one _ st
    · simp only [if_neg h1, if_neg h2]
      exact sameShape_refl st

/-! The `player2_moved` flag through `make_move`. -/

theorem setRow_player2Moved (s : GameState) (p : Player) (l : List Nat) :
    (s.setRow p l).player2Moved = s.player2Moved := by
  cases p <;> rfl

/-- C7 counterexample: Player Two's pit move is accepted but the resulting
state still has `player2_moved = false`; `make_move` never writes the flag. -/
theorem c7_counterexample :
    ((GameState.mk [1] [1] 0 0 5 Player.two false).makeMove
        (Move.pit 1)).map GameState.player2Moved = some false := by decide

/-- C7 amended: `make_move` never modifies `player2_moved` — the flag of every
successor state equals the flag of its predecessor (so it stays at whatever
value the state was constructed with), and swap eligibility is bounded by
`ply == 2` alone, not by this flag. -/
theorem c7_player2_moved_constant (s : GameState) (m : Move) (s2 : GameState)
    (h : s.makeMove m = some s2) : s2.player2Moved = s.player2Moved := by
  cases m with
  | swap =>
    simp only [GameState.makeMove] at h
    split at h
    · exact Option.noConfusion h
    · rw [Option.some_inj] at h
      rw [← h]
      rfl
  | pit n =>
    simp only [GameState.makeMove] at h
    split at h
    · exact Option.noConfusion h
    · split at h
      · exact Option.noConfusion h
      · rw [Option.some_inj] at h
        rw [← h]
        split
        · show (GameState.sweep _).player2Moved = s.player2Moved
          rw [(sweep_sameShape _).2.2.1, (sow_sameShape ..).2.2.1,
            setRow_player2Moved]
        · show (GameState.sweep _).player2Moved = s.player2Moved
          rw [(sweep_sameShape _).2.2.1, (sow_sameShape ..).2.2.1,
            setRow_player2Moved]

/-- Witness for the amended C7: the concrete Player Two pit move of the
counterexample, where the flag stays `false`. -/
theorem c7_player2_moved_constant_witness :
    (GameState.mk [0] [0] 1 1 6 Player.two false).player2Moved
      = (GameState.mk [1] [1] 0 0 5 Player.two false).player2Moved :=
  c7_player2_moved_constant _ (Move.pit 1) _ (by decide)

/-! Stone conservation. -/

theorem addStore_total (st : GameState) (p : Player) (k : Nat) :
    (st.addStore p k).total = st.total + k := by
  cases p <;> simp [GameState.addStore, GameState.total] <;> omega

theorem placeStone_total (st : GameState) (side : Player) (pit : Nat)
    (h : pit < (st.row side).length) :
    (GameState.placeStone st side pit).total = st.total + 1 := by
  cases side
  · simp only [GameState.placeStone, GameState.setRow, GameState.row,
      GameState.total]
    have := sum_set_incr st.board1 pit h
    omega
  · simp only [GameState.placeStone, GameState.setRow, GameState.row,
      GameState.total]
    have := sum_set_incr st.board2 pit h
    omega

theorem captureCheck_total (st : GameState) (side : Player) (pit : Nat)
    (last : Bool) : (GameState.captureCheck st side pit last).total = st.total := by
  unfold GameState.captureCheck
  split
  · cases side
    · have e1 := sum_set_zero st.board1 pit
      have e2 := sum_set_zero st.board2 (st.pits - pit - 1)
      have hb : (Player.one == Player.one) = true := rfl
      simp only [GameState.addStore, GameState.setRow, GameState.row,
        GameState.total, hb, if_true]
      simp only [List.getD_eq_getElem?_getD] at e1 e2 ⊢
      omega
    · have e1 := sum_set_zero st.board1 (st.pits - pit - 1)
      have e2 := sum_set_zero st.board2 pit
      have hb : (Player.two == Player.one) = false := rfl
      simp only [GameState.addStore, GameState.setRow, GameState.row,
        GameState.total, hb, if_false, Bool.false_eq_true]
      simp only [List.getD_eq_getElem?_getD] at e1 e2 ⊢
      omega
  · rfl

theorem row_length_eq_pits (st : GameState) (side : Player)
    (hlen2 : st.board2.length = st.pits) :
    (st.row side).length = st.pits := by
  cases side
  · rfl
  · exact hlen2

theorem sameShape_pits {st st2 : GameState} (hsh : sameShape st st2) :
    st2.pits = st.pits := hsh.2.2.2.1

theorem sameShape_cond {st st2 : GameState} (hsh : sameShape st st2)
    (hlen2 : st.board2.length = st.pits) (hpos : 0 < st.pits) :
    st2.board2.length = st2.pits ∧ 0 < st2.pits := by
  constructor
  · show st2.board2.length = st2.board1.length
    rw [hsh.2.2.2.2, hsh.2.2.2.1]
    exact hlen2
  · show 0 < st2.board1.length
    rw [hsh.2.2.2.1]
    exact hpos

theorem sow_total (mover : Player) :
    ∀ (rem : Nat) (st : GameState) (side : Player) (pit : Nat) (g : Bool),
      st.board2.length = st.pits → 0 < st.pits → pit ≤ st.pits →
      (GameState.sow mover rem st side pit g).1.total = st.total + rem := by
  intro rem
  induction rem using Nat.strong_induction_on with
  | _ rem ih =>
    match rem with
    | 0 => intro st side pit g _ _ _; rfl
    | 1 =>
      intro st side pit g hlen2 hpos hpit
      unfold GameState.sow
      split
      · rename_i hne
        have hlt : pit < st.pits :=
          Nat.lt_of_le_of_ne hpit (by simpa using hne)
        show (GameState.captureCheck _ _ _ _).total = st.total + 1
        rw [captureCheck_total, placeStone_total st side pit
          (by rw [row_length_eq_pits st side hlen2]; exact hlt)]
      · split
        · show (GameState.captureCheck _ _ _ _).total = st.total + 1
          rw [captureCheck_total, addStore_total]
        · show (GameState.captureCheck _ _ _ _).total = st.total + 1
          rw [captureCheck_total, placeStone_total st _ 0
            (by rw [row_length_eq_pits st _ hlen2]; exact hpos)]
    | rem+2 =>
      intro st side pit g hlen2 hpos hpit
      unfold GameState.sow
      split
      · rename_i hne
        have hlt : pit < st.pits :=
          Nat.lt_of_le_of_ne hpit (by simpa using hne)
        have hsh := sameShape_trans (placeStone_sameShape st side pit)
          (captureCheck_sameShape (GameState.placeStone st side pit) side pit
            false)
        obtain ⟨c1, c2⟩ := sameShape_cond hsh hlen2 hpos
        rw [ih (rem+1) (by omega) _ side (pit+1) g c1 c2
          (by rw [sameShape_pits hsh]; omega)]
        rw [captureCheck_total, placeStone_total st side pit
          (by rw [row_length_eq_pits st side hlen2]; exact hlt)]
        omega
      · split
        · have hsh1 := addStore_sameShape st side 1
          obtain ⟨d1, d2⟩ := sameShape_cond hsh1 hlen2 hpos
          have hsh := sameShape_trans hsh1
            (sameShape_trans
              (placeStone_sameShape (st.addStore side 1) side.other 0)
              (captureCheck_sameShape
                (GameState.placeStone (st.addStore side 1) side.other 0)
                side.other 0 false))
          obtain ⟨c1, c2⟩ := sameShape_cond hsh hlen2 hpos
          rw [ih rem (by omega) _ side.other 1 false c1 c2
            (by rw [sameShape_pits hsh]; exact hpos)]
          rw [captureCheck_total, placeStone_total (st.addStore side 1)
            side.other 0
            (by rw [row_length_eq_pits (st.addStore side 1) side.other d1]
                exact d2),
            addStore_total]
          omega
        · have hsh := sameShape_trans
            (placeStone_sameShape st side.other 0)
            (captureCheck_sameShape (GameState.placeStone st side.other 0)
              side.other 0 false)
          obtain ⟨c1, c2⟩ := sameShape_cond hsh hlen2 hpos
          rw [ih (rem+1) (by omega) _ side.other 1 g c1 c2
            (by rw [sameShape_pits hsh]; exact hpos)]
          rw [captureCheck_total, placeStone_total st side.other 0
            (by rw [row_length_eq_pits st side.other hlen2]; exact hpos)]
          omega

theorem sweepFold_total (w : Player) :
    ∀ (l : List Nat) (st : GameState),
      (l.foldl (fun acc pit =>
        let acc1 := acc.addStore w ((acc.row w).getD pit 0)
        acc1.setRow w ((acc1.row w).set pit 0)) st).total = st.total := by
  intro l
  induction l with
  | nil => intro st; rfl
  | cons x xs ih =>
    intro st
    rw [List.foldl_cons, ih]
    cases w
    · show ((st.addStore Player.one ((st.row Player.one).getD x 0)).setRow
        Player.one
        (((st.addStore Player.one ((st.row Player.one).getD x 0)).row
          Player.one).set x 0)).total = st.total
      have e := sum_set_zero st.board1 x
      simp only [GameState.addStore, GameState.setRow, GameState.row,
        GameState.total]
      omega
    · show ((st.addStore Player.two ((st.row Player.two).getD x 0)).setRow
        Player.two
        (((st.addStore Player.two ((st.row Player.two).getD x 0)).row
          Player.two).set x 0)).total = st.total
      have e := sum_set_zero st.board2 x
      simp only [GameState.addStore, GameState.setRow, GameState.row,
        GameState.total]
      omega

theorem sweep_total (st : GameState) : st.sweep.total = st.total := by
  unfold GameState.sweep
  by_cases h1 : (st.board1.sum == 0) = true
  · simp only [h1, if_true]
    exact sweepFold_total Player.two _ st
  · by_cases h2 : (st.board2.sum == 0) = true
    · simp only [if_neg h1, h2, if_true]
      exact sweepFold_total Player.one _ st
    · simp only [if_neg h1, if_neg h2]

/-- C2: `make_move` conserves the total
`sum(rows[0]) + sum(rows[1]) + stores[0] + stores[1]` on every state whose two
rows have equal length; hence the total is invariant across every reachable
state of a game. -/
theorem c2_conservation (s : GameState) (m : Move) (s2 : GameState)
    (hlen : s.board1.length = s.board2.length)
    (h : s.makeMove m = some s2) : s2.total = s.total := by
  cases m with
  | swap =>
    simp only [GameState.makeMove] at h
    split at h
    · exact Option.noConfusion h
    · rw [Option.some_inj] at h
      rw [← h]
      show s.rotateBoard.total = s.total
      simp only [GameState.rotateBoard, GameState.total]
      omega
  | pit n =>
    simp only [GameState.makeMove] at h
    split at h
    · exact Option.noConfusion h
    · rename_i hb
      split at h
      · exact Option.noConfusion h
      · rw [Option.some_inj] at h
        rw [← h]
        simp only [Bool.or_eq_true, decide_eq_true_eq, not_or] at hb
        have hn1 : 1 ≤ n := by omega
        have hn2 : n ≤ s.pits := by omega
        have hset : ∀ p : Player,
            ((s.setRow s.turn ((s.row s.turn).set (n-1) 0)).row p).length
              = (s.row p).length := by
          intro p
          cases hp : s.turn <;> cases p <;>
            simp [GameState.setRow, GameState.row, List.length_set]
        have hA : (s.setRow s.turn ((s.row s.turn).set (n-1) 0)).board2.length
            = (s.setRow s.turn ((s.row s.turn).set (n-1) 0)).pits := by
          show ((s.setRow s.turn ((s.row s.turn).set (n-1) 0)).row
              Player.two).length
            = ((s.setRow s.turn ((s.row s.turn).set (n-1) 0)).row
              Player.one).length
          rw [hset Player.two, hset Player.one]
          exact hlen.symm
        have hB : 0 < (s.setRow s.turn ((s.row s.turn).set (n-1) 0)).pits := by
          show 0 < ((s.setRow s.turn ((s.row s.turn).set (n-1) 0)).row
            Player.one).length
          rw [hset Player.one]
          show 0 < s.pits
          omega
        have hC : n ≤ (s.setRow s.turn ((s.row s.turn).set (n-1) 0)).pits := by
          show n ≤ ((s.setRow s.turn ((s.row s.turn).set (n-1) 0)).row
            Player.one).length
          rw [hset Player.one]
          exact hn2
        have hst : (s.setRow s.turn ((s.row s.turn).set (n-1) 0)).total
            + (s.row s.turn).getD (n-1) 0 = s.total := by
          cases ht : s.turn
          · have e := sum_set_zero s.board1 (n-1)
            simp only [GameState.setRow, GameState.row, GameState.total]
            omega
          · have e := sum_set_zero s.board2 (n-1)
            simp only [GameState.setRow, GameState.row, GameState.total]
            omega
        split
        · show (GameState.sweep _).total = s.total
          rw [sweep_total, sow_total s.turn _ _ s.turn n false hA hB hC]
          omega
        · show (GameState.sweep _).total = s.total
          rw [sweep_total, sow_total s.turn _ _ s.turn n false hA hB hC]
          omega

/-- Witness for C2: the opening move `Pit(3)` from the default start keeps
the total at 48. -/
theorem c2_conservation_witness :
    (GameState.mk [4, 4, 0, 5, 5, 5] [4, 4, 4, 4, 4, 4] 1 0 2 Player.one
      false).total = defaultStart.total :=
  c2_conservation defaultStart (Move.pit 3) _ (by decide) (by decide)

/-! The capture rule. -/

theorem getD_set_self (l : List Nat) (i x : Nat) (h : i < l.length) :
    (l.set i x).getD i 0 = x := by
  rw [List.getD_eq_getElem _ _ (by simpa using h)]
  simp [List.getElem_set_self]

theorem captureCheck_eq_pos (st : GameState) (side : Player) (pit : Nat)
    (last : Bool)
    (hcond : (last && side == st.turn && (st.row side).getD pit 0 == 1)
      = true) :
    GameState.captureCheck st side pit last =
      (let toCapture : Nat × Nat :=
        if side == Player.one then (pit, st.pits - pit - 1)
        else (st.pits - pit - 1, pit)
      let st1 := st.addStore side ((st.row Player.one).getD toCapture.1 0)
      let st2 := st1.addStore side ((st1.row Player.two).getD toCapture.2 0)
      let st3 := st2.setRow Player.one ((st2.row Player.one).set toCapture.1 0)
      st3.setRow Player.two ((st3.row Player.two).set toCapture.2 0)) := by
  unfold GameState.captureCheck
  rw [if_pos hcond]

/-- The capture block of `make_move` at the final sowing iteration (`sow` at
`rem = 1`): when the last stone lands in a pit at position `pit < pits` on the
current mover's own side that was empty before (so it holds exactly one stone
after landing), the post-capture state has that pit and the directly opposite
pit of the other row (index `pits - pit - 1`) both zero, and the mover's store
grown by exactly the combined prior contents of the two pits — the landed
stone plus the opposite pit's stones.  The rows are of equal length `pits`. -/
theorem captureStep_spec (mover : Player) (st : GameState) (side : Player)
    (pit : Nat) (g : Bool)
    (hside : side = st.turn)
    (hpit : pit < st.pits)
    (hlen2 : st.board2.length = st.pits)
    (hempty : (st.row side).getD pit 0 = 0) :
    ((GameState.sow mover 1 st side pit g).1.row side).getD pit 0 = 0 ∧
    ((GameState.sow mover 1 st side pit g).1.row side.other).getD
        (st.pits - pit - 1) 0 = 0 ∧
    (GameState.sow mover 1 st side pit g).1.store side
      = st.store side + 1
        + (st.row side.other).getD (st.pits - pit - 1) 0 := by
  have hne : (pit != st.pits) = true := by
    simp only [bne_iff_ne, Ne]
    omega
  have hfst : (GameState.sow mover 1 st side pit g).1
      = GameState.captureCheck (GameState.placeStone st side pit) side pit
          true := by
    unfold GameState.sow
    rw [if_pos hne]
  rw [hfst]
  cases side
  · have hb1 : (st.board1.set pit (st.board1.getD pit 0 + 1)).getD pit 0
        = 1 := by
      rw [getD_set_self st.board1 pit _ hpit]
      have h0 : st.board1.getD pit 0 = 0 := hempty
      omega
    have hplace : GameState.placeStone st Player.one pit
        = { st with board1 := st.board1.set pit (st.board1.getD pit 0 + 1) } := rfl
    have hcond : (true && Player.one ==
          (GameState.placeStone st Player.one pit).turn &&
        ((GameState.placeStone st Player.one pit).row Player.one).getD pit 0
          == 1) = true := by
      rw [hplace]
      show (true && Player.one == st.turn &&
        ((st.board1.set pit (st.board1.getD pit 0 + 1)).getD pit 0 == 1))
          = true
      rw [hb1, ← hside]
      rfl
    rw [captureCheck_eq_pos _ _ _ _ hcond, hplace]
    rw [show ({ st with board1 := st.board1.set pit (st.board1.getD pit 0 + 1)
        } : GameState).pits = st.pits from
      List.length_set st.board1 pit (st.board1.getD pit 0 + 1)]
    refine ⟨?_, ?_, ?_⟩
    · show (((st.board1.set pit (st.board1.getD pit 0 + 1)).set pit 0)).getD
          pit 0 = 0
      rw [List.set_set]
      exact getD_set_self st.board1 pit 0 hpit
    · show (st.board2.set (st.pits - pit - 1) 0).getD (st.pits - pit - 1) 0
        = 0
      exact getD_set_self st.board2 _ 0 (by rw [hlen2]; omega)
    · show st.store1
          + (st.board1.set pit (st.board1.getD pit 0 + 1)).getD pit 0
          + st.board2.getD (st.pits - pit - 1) 0
        = st.store1 + 1 + st.board2.getD (st.pits - pit - 1) 0
      rw [hb1]
  · have hb2 : (st.board2.set pit (st.board2.getD pit 0 + 1)).getD pit 0
        = 1 := by
      rw [getD_set_self st.board2 pit _ (by rw [hlen2]; exact hpit)]
      have h0 : st.board2.getD pit 0 = 0 := hempty
      omega
    have hplace : GameState.placeStone st Player.two pit
        = { st with board2 := st.board2.set pit (st.board2.getD pit 0 + 1) } := rfl
    have hcond : (true && Player.two ==
          (GameState.placeStone st Player.two pit).turn &&
        ((GameState.placeStone st Player.two pit).row Player.two).getD pit 0
          == 1) = true := by
      rw [hplace]
      show (true && Player.two == st.turn &&
        ((st.board2.set pit (st.board2.getD pit 0 + 1)).getD pit 0 == 1))
          = true
      rw [hb2, ← hside]
      rfl
    rw [captureCheck_eq_pos _ _ _ _ hcond, hplace]
    refine ⟨?_, ?_, ?_⟩
    · show (((st.board2.set pit (st.board2.getD pit 0 + 1)).set pit 0)).getD
          pit 0 = 0
      rw [List.set_set]
      exact getD_set_self st.board2 pit 0 (by rw [hlen2]; exact hpit)
    · show (st.board1.set (st.pits - pit - 1) 0).getD (st.pits - pit - 1) 0
        = 0
      exact getD_set_self st.board1 _ 0
        (by have h1 : st.board1.length = st.pits := rfl; omega)
    · show st.store2
          + st.board1.getD (st.pits - pit - 1) 0
          + (st.board2.set pit (st.board2.getD pit 0 + 1)).getD pit 0
        = st.store2 + 1 + st.board1.getD (st.pits - pit - 1) 0
      rw [hb2]
      omega

/-! Tie-breaking in the search loops, and the shape of the root call. -/

/-- C8: in the move loop of `max_value` (dually `min_value`), a move whose
value merely equals the running best `v` does not replace the recorded best
move — the loop continues with `best` unchanged — while a strictly greater
(dually strictly smaller) value replaces it; hence the move returned is the
first move in the orderer's output attaining the node's best value. -/
theorem c8_tie_break (alpha beta v : FVal) (child : FVal → Move → FVal)
    (m : Move) (rest : List Move) (best : Option Move) :
    (child alpha m = v →
      maxLoopF beta child (m :: rest) alpha v best
        = (if beta ≤ v then (best, v)
           else maxLoopF beta child rest alpha v best))
    ∧ (v < child alpha m →
      maxLoopF beta child (m :: rest) alpha v best
        = (if beta ≤ child alpha m then (some m, child alpha m)
           else maxLoopF beta child rest (max alpha (child alpha m))
             (child alpha m) (some m)))
    ∧ (child beta m = v →
      minLoopF alpha child (m :: rest) beta v best
        = (if v ≤ alpha then (best, v)
           else minLoopF alpha child rest beta v best))
    ∧ (child beta m < v →
      minLoopF alpha child (m :: rest) beta v best
        = (if child beta m ≤ alpha then (some m, child beta m)
           else minLoopF alpha child rest (min beta (child beta m))
             (child beta m) (some m))) := by
  refine ⟨?_, ?_, ?_, ?_⟩
  · intro h
    simp only [maxLoopF]
    rw [if_neg (by rw [h]; exact lt_irrefl v)]
  · intro h
    simp only [maxLoopF]
    rw [if_pos h]
  · intro h
    simp only [minLoopF]
    rw [if_neg (by rw [h]; exact lt_irrefl v)]
  · intro h
    simp only [minLoopF]
    rw [if_pos h]

/-- Witness for C8: concrete loop steps where an equal child value keeps the
earlier best move and a strictly better one replaces it, in both loops. -/
theorem c8_tie_break_witness :
    (maxLoopF ⊤ (fun _ _ => FVal.ofInt 3) [Move.pit 2] ⊥ (FVal.ofInt 3)
        (some (Move.pit 1))
      = (if (⊤ : FVal) ≤ FVal.ofInt 3 then (some (Move.pit 1), FVal.ofInt 3)
         else maxLoopF ⊤ (fun _ _ => FVal.ofInt 3) [] ⊥ (FVal.ofInt 3)
           (some (Move.pit 1))))
    ∧ (maxLoopF ⊤ (fun _ _ => FVal.ofInt 3) [Move.pit 2] ⊥ (FVal.ofInt 2)
        (some (Move.pit 1))
      = (if (⊤ : FVal) ≤ (fun (_ : FVal) (_ : Move) => FVal.ofInt 3) ⊥
            (Move.pit 2)
         then (some (Move.pit 2),
           (fun (_ : FVal) (_ : Move) => FVal.ofInt 3) ⊥ (Move.pit 2))
         else maxLoopF ⊤ (fun _ _ => FVal.ofInt 3) []
           (max ⊥ ((fun (_ : FVal) (_ : Move) => FVal.ofInt 3) ⊥
             (Move.pit 2)))
           ((fun (_ : FVal) (_ : Move) => FVal.ofInt 3) ⊥ (Move.pit 2))
           (some (Move.pit 2))))
    ∧ (minLoopF ⊥ (fun _ _ => FVal.ofInt 3) [Move.pit 2] ⊤ (FVal.ofInt 3)
        (some (Move.pit 1))
      = (if FVal.ofInt 3 ≤ (⊥ : FVal) then (some (Move.pit 1), FVal.ofInt 3)
         else minLoopF ⊥ (fun _ _ => FVal.ofInt 3) [] ⊤ (FVal.ofInt 3)
           (some (Move.pit 1))))
    ∧ (minLoopF ⊥ (fun _ _ => FVal.ofInt 3) [Move.pit 2] ⊤ (FVal.ofInt 5)
        (some (Move.pit 1))
      = (if (fun (_ : FVal) (_ : Move) => FVal.ofInt 3) ⊤ (Move.pit 2)
            ≤ (⊥ : FVal)
         then (some (Move.pit 2),
           (fun (_ : FVal) (_ : Move) => FVal.ofInt 3) ⊤ (Move.pit 2))
         else minLoopF ⊥ (fun _ _ => FVal.ofInt 3) []
           (min ⊤ ((fun (_ : FVal) (_ : Move) => FVal.ofInt 3) ⊤
             (Move.pit 2)))
           ((fun (_ : FVal) (_ : Move) => FVal.ofInt 3) ⊤ (Move.pit 2))
           (some (Move.pit 2)))) :=
  ⟨(c8_tie_break ⊥ ⊤ (FVal.ofInt 3) (fun _ _ => FVal.ofInt 3) (Move.pit 2)
      [] (some (Move.pit 1))).1 rfl,
   (c8_tie_break ⊥ ⊤ (FVal.ofInt 2) (fun _ _ => FVal.ofInt 3) (Move.pit 2)
      [] (some (Move.pit 1))).2.1 (by decide),
   (c8_tie_break ⊥ ⊤ (FVal.ofInt 3) (fun _ _ => FVal.ofInt 3) (Move.pit 2)
      [] (some (Move.pit 1))).2.2.1 rfl,
   (c8_tie_break ⊥ ⊤ (FVal.ofInt 5) (fun _ _ => FVal.ofInt 3) (Move.pit 2)
      [] (some (Move.pit 1))).2.2.2 (by decide)⟩

/-- C10: `search_utility` always evaluates the root with `max_value` at the
full window, for every state and configuration — in particular also when the
root's turn is not `optimize_for` — and inside a node the maximizing or
minimizing role flips exactly when the child state's turn differs from its
parent's: `max_value` at `fuel+1` on a non-terminal state is the move loop
over `childMax`, and `childMax` recurses into `max_value` on a bonus turn and
into `min_value` otherwise. -/
theorem c10_root_max (cfg : MinimaxCfg) (fuel : Nat) (s : GameState) :
    (searchUtility cfg s fuel
      = (match maxValue cfg fuel s ⊥ ⊤ with
         | (none, _) => none
         | (some m, u) => some (m, u)))
    ∧ (∀ (alpha beta : FVal), s.isOver = false →
        maxValue cfg (fuel+1) s alpha beta
          = maxLoopF beta (childMax cfg fuel s beta) (cfg.moveOrderer s)
              alpha ⊥ none)
    ∧ (∀ (alpha beta : FVal) (m : Move) (ns : GameState),
        s.makeMove m = some ns →
          childMax cfg fuel s beta alpha m
            = (if ns.turn = s.turn then (maxValue cfg fuel ns alpha beta).2
               else (minValue cfg fuel ns alpha beta).2)) := by
  refine ⟨rfl, ?_, ?_⟩
  · intro alpha beta hov
    show (if s.isOver = true then (none, evaluate cfg s)
      else maxLoopF beta
        (fun a m =>
          let ns := (s.makeMove m).getD s
          if ns.turn == s.turn then (maxValue cfg fuel ns a beta).2
          else (minValue cfg fuel ns a beta).2)
        (cfg.moveOrderer s) alpha ⊥ none)
      = maxLoopF beta (childMax cfg fuel s beta) (cfg.moveOrderer s)
          alpha ⊥ none
    rw [if_neg (by rw [hov]; exact Bool.false_ne_true)]
    rfl
  · intro alpha beta m ns h
    unfold childMax
    rw [h]
    show (if ns.turn == s.turn then (maxValue cfg fuel ns alpha beta).2
      else (minValue cfg fuel ns alpha beta).2) = _
    by_cases ht : ns.turn = s.turn
    · rw [if_pos (by simp [ht]), if_pos ht]
    · rw [if_neg (by simp [ht]), if_neg ht]

/-- Witness for C10: the default configuration at fuel 0 on a Player Two
state (so the root turn differs from `optimize_for = Player One`), with the
accepted move `Pit(1)` flipping the turn. -/
theorem c10_root_max_witness :
    (searchUtility defaultCfg (GameState.mk [2, 1] [1, 2] 0 0 3 Player.two
        false) 0
      = (match maxValue defaultCfg 0 (GameState.mk [2, 1] [1, 2] 0 0 3
            Player.two false) ⊥ ⊤ with
         | (none, _) => none
         | (some m, u) => some (m, u)))
    ∧ (maxValue defaultCfg 1 (GameState.mk [2, 1] [1, 2] 0 0 3 Player.two
          false) ⊥ ⊤
        = maxLoopF ⊤ (childMax defaultCfg 0 (GameState.mk [2, 1] [1, 2] 0 0 3
            Player.two false) ⊤)
            (defaultCfg.moveOrderer (GameState.mk [2, 1] [1, 2] 0 0 3
              Player.two false)) ⊥ ⊥ none)
    ∧ (childMax defaultCfg 0 (GameState.mk [2, 1] [1, 2] 0 0 3 Player.two
          false) ⊤ ⊥ (Move.pit 1)
        = (if (GameState.mk [2, 1] [0, 3] 0 0 4 Player.one false).turn
              = (GameState.mk [2, 1] [1, 2] 0 0 3 Player.two false).turn
           then (maxValue defaultCfg 0 (GameState.mk [2, 1] [0, 3] 0 0 4
             Player.one false) ⊥ ⊤).2
           else (minValue defaultCfg 0 (GameState.mk [2, 1] [0, 3] 0 0 4
             Player.one false) ⊥ ⊤).2)) := by
  have h := c10_root_max defaultCfg 0
    (GameState.mk [2, 1] [1, 2] 0 0 3 Player.two false)
  exact ⟨h.1, h.2.1 ⊥ ⊤ (by decide),
    h.2.2 ⊥ ⊤ (Move.pit 1) (GameState.mk [2, 1] [0, 3] 0 0 4 Player.one false)
      (by decide)⟩

/-! Fail-soft alpha-beta agrees with the unpruned search inside the window:
the algebra of `clamp`. -/

theorem clamp_mono {alpha beta a b : FVal} (h : a ≤ b) :
    clamp alpha beta a ≤ clamp alpha beta b :=
  max_le_max le_rfl (min_le_min le_rfl h)

theorem clamp_max_hom (alpha beta a b : FVal) :
    clamp alpha beta (max a b)
      = max (clamp alpha beta a) (clamp alpha beta b) := by
  rcases le_total a b with h | h
  · rw [max_eq_right h, max_eq_right (clamp_mono h)]
  · rw [max_eq_left h, max_eq_left (clamp_mono h)]

theorem clamp_min_hom (alpha beta a b : FVal) :
    clamp alpha beta (min a b)
      = min (clamp alpha beta a) (clamp alpha beta b) := by
  rcases le_total a b with h | h
  · rw [min_eq_left h, min_eq_left (clamp_mono h)]
  · rw [min_eq_right h, min_eq_right (clamp_mono h)]

theorem clamp_eq_alpha {alpha beta x : FVal} (h : x ≤ alpha) :
    clamp alpha beta x = alpha :=
  max_eq_left (le_trans (min_le_right beta x) h)

theorem clamp_eq_beta {alpha beta x : FVal} (hab : alpha ≤ beta)
    (h : beta ≤ x) : clamp alpha beta x = beta := by
  unfold clamp
  rw [min_eq_left h]
  exact max_eq_right hab

theorem clamp_eq_self {alpha beta x : FVal} (h1 : alpha ≤ x) (h2 : x ≤ beta) :
    clamp alpha beta x = x := by
  unfold clamp
  rw [min_eq_right h2]
  exact max_eq_right h1

theorem clamp_shift {alpha beta v x : FVal} (hav : alpha < v) (hvb : v < beta)
    (h : v ≤ x) : clamp alpha beta x = clamp v beta x := by
  have hminv : v ≤ min beta x := le_min hvb.le h
  unfold clamp
  rw [max_eq_right (le_trans hav.le hminv), max_eq_right hminv]

/-- Inverting a clamp equation strictly inside the window. -/
theorem clamp_inv_mid {alpha beta v x : FVal} (hav : alpha < v)
    (hvb : v < beta) (h : clamp alpha beta x = v) : x = v := by
  rcases le_or_lt x alpha with h1 | h1
  · rw [clamp_eq_alpha h1] at h
    exact absurd h (ne_of_lt hav)
  · rcases le_or_lt beta x with h2 | h2
    · rw [clamp_eq_beta (lt_trans hav hvb).le h2] at h
      exact absurd h (ne_of_gt hvb)
    · rwa [clamp_eq_self h1.le h2.le] at h

/-- Inverting a clamp equation at the top of the window. -/
theorem clamp_inv_beta {alpha beta x : FVal} (hab : alpha < beta)
    (h : clamp alpha beta x = beta) : beta ≤ x := by
  rcases le_or_lt beta x with h2 | h2
  · exact h2
  · rcases le_or_lt x alpha with h1 | h1
    · rw [clamp_eq_alpha h1] at h
      exact absurd h (ne_of_lt hab)
    · rw [clamp_eq_self h1.le h2.le] at h
      exact absurd h (ne_of_lt h2)

/-- Inverting a clamp equation at the bottom of the window. -/
theorem clamp_inv_alpha {alpha beta x : FVal} (hab : alpha < beta)
    (h : clamp alpha beta x = alpha) : x ≤ alpha := by
  rcases le_or_lt x alpha with h1 | h1
  · exact h1
  · rcases le_or_lt beta x with h2 | h2
    · rw [clamp_eq_beta hab.le h2] at h
      exact absurd h (ne_of_gt hab)
    · rw [clamp_eq_self h1.le h2.le] at h
      exact absurd h (ne_of_gt h1)

/-! Monotonicity and decomposition of the search loops. -/

theorem maxLoopF_val_ge (beta : FVal) (child : FVal → Move → FVal) :
    ∀ (moves : List Move) (alpha v : FVal) (best : Option Move),
      v ≤ (maxLoopF beta child moves alpha v best).2 := by
  intro moves
  induction moves with
  | nil => intro alpha v best; exact le_rfl
  | cons m rest ih =>
    intro alpha v best
    simp only [maxLoopF]
    by_cases hup : v < child alpha m
    · rw [if_pos hup]
      by_cases hprune : beta ≤ child alpha m
      · rw [if_pos hprune]
        exact hup.le
      · rw [if_neg hprune]
        exact le_trans hup.le (ih _ _ _)
    · rw [if_neg hup]
      by_cases hprune : beta ≤ v
      · rw [if_pos hprune]
      · rw [if_neg hprune]
        exact ih _ _ _

theorem minLoopF_val_le (alpha : FVal) (child : FVal → Move → FVal) :
    ∀ (moves : List Move) (beta v : FVal) (best : Option Move),
      (minLoopF alpha child moves beta v best).2 ≤ v := by
  intro moves
  induction moves with
  | nil => intro beta v best; exact le_rfl
  | cons m rest ih =>
    intro beta v best
    simp only [minLoopF]
    by_cases hup : child beta m < v
    · rw [if_pos hup]
      by_cases hprune : child beta m ≤ alpha
      · rw [if_pos hprune]
        exact hup.le
      · rw [if_neg hprune]
        exact le_trans (ih _ _ _) hup.le
    · rw [if_neg hup]
      by_cases hprune : v ≤ alpha
      · rw [if_pos hprune]
      · rw [if_neg hprune]
        exact ih _ _ _

theorem fullMaxLoopF_ge (child : Move → FVal) :
    ∀ (moves : List Move) (v : FVal), v ≤ fullMaxLoopF child moves v := by
  intro moves
  induction moves with
  | nil => intro v; exact le_rfl
  | cons m rest ih =>
    intro v
    simp only [fullMaxLoopF]
    exact le_trans (le_max_left _ _) (ih _)

theorem fullMinLoopF_le (child : Move → FVal) :
    ∀ (moves : List Move) (v : FVal), fullMinLoopF child moves v ≤ v := by
  intro moves
  induction moves with
  | nil => intro v; exact le_rfl
  | cons m rest ih =>
    intro v
    simp only [fullMinLoopF]
    exact le_trans (ih _) (min_le_left _ _)

theorem fullMaxLoopF_decomp (child : Move → FVal) :
    ∀ (moves : List Move) (v : FVal),
      fullMaxLoopF child moves v = max v (fullMaxLoopF child moves ⊥) := by
  intro moves
  induction moves with
  | nil => intro v; exact (max_eq_left bot_le).symm
  | cons m rest ih =>
    intro v
    simp only [fullMaxLoopF]
    rw [ih (max v (child m)), ih (max ⊥ (child m)), max_comm ⊥ (child m),
      max_eq_left bot_le, max_assoc]

theorem fullMinLoopF_decomp (child : Move → FVal) :
    ∀ (moves : List Move) (v : FVal),
      fullMinLoopF child moves v = min v (fullMinLoopF child moves ⊤) := by
  intro moves
  induction moves with
  | nil => intro v; exact (min_eq_left le_top).symm
  | cons m rest ih =>
    intro v
    simp only [fullMinLoopF]
    rw [ih (min v (child m)), ih (min ⊤ (child m)), min_comm ⊤ (child m),
      min_eq_left le_top, min_assoc]

/-- The move loop of `max_value` agrees, inside the window, with the unpruned
maximizing fold, provided every child does (the induction hypothesis of the
per-depth argument). -/
theorem maxLoop_clamp (beta : FVal) (child : FVal → Move → FVal)
    (fullchild : Move → FVal)
    (hchild : ∀ (a : FVal) (m : Move), a < beta →
      clamp a beta (child a m) = clamp a beta (fullchild m)) :
    ∀ (moves : List Move) (alpha v : FVal) (best : Option Move),
      alpha < beta → v < beta →
      clamp alpha beta (maxLoopF beta child moves alpha v best).2
        = clamp alpha beta (fullMaxLoopF fullchild moves v) := by
  intro moves
  induction moves with
  | nil => intro alpha v best _ _; rfl
  | cons m rest ih =>
    intro alpha v best hab hvb
    simp only [maxLoopF, fullMaxLoopF]
    by_cases hup : v < child alpha m
    · rw [if_pos hup]
      by_cases hprune : beta ≤ child alpha m
      · rw [if_pos hprune]
        show clamp alpha beta (child alpha m)
          = clamp alpha beta (fullMaxLoopF fullchild rest (max v (fullchild m)))
        have hG : beta ≤ fullchild m := by
          have hc := hchild alpha m hab
          rw [clamp_eq_beta hab.le hprune] at hc
          exact clamp_inv_beta hab hc.symm
        have hge : beta ≤ fullMaxLoopF fullchild rest (max v (fullchild m)) :=
          le_trans hG (le_trans (le_max_right _ _) (fullMaxLoopF_ge _ _ _))
        rw [clamp_eq_beta hab.le hprune, clamp_eq_beta hab.le hge]
      · rw [if_neg hprune]
        push_neg at hprune
        rcases le_or_lt (child alpha m) alpha with hca | hca
        · rw [max_eq_left hca]
          rw [ih alpha (child alpha m) (some m) hab hprune]
          rw [fullMaxLoopF_decomp fullchild rest (child alpha m),
            fullMaxLoopF_decomp fullchild rest (max v (fullchild m)),
            clamp_max_hom, clamp_max_hom, clamp_max_hom]
          rw [← hchild alpha m hab]
          rw [max_eq_right (clamp_mono hup.le)]
        · rw [max_eq_right hca.le]
          have hGv : fullchild m = child alpha m := by
            have hc := hchild alpha m hab
            rw [clamp_eq_self hca.le hprune.le] at hc
            exact clamp_inv_mid hca hprune hc.symm
          rw [hGv, max_eq_right hup.le]
          have hL := maxLoopF_val_ge beta child rest (child alpha m)
            (child alpha m) (some m)
          have hR := fullMaxLoopF_ge fullchild rest (child alpha m)
          rw [clamp_shift hca hprune hL, clamp_shift hca hprune hR]
          exact ih (child alpha m) (child alpha m) (some m) hprune hprune
    · rw [if_neg hup]
      rw [if_neg (not_le.mpr hvb)]
      rw [ih alpha v best hab hvb]
      rw [fullMaxLoopF_decomp fullchild rest v,
        fullMaxLoopF_decomp fullchild rest (max v (fullchild m)),
        clamp_max_hom, clamp_max_hom, clamp_max_hom]
      rw [← hchild alpha m hab]
      push_neg at hup
      rw [max_eq_left (clamp_mono hup)]

theorem clamp_shift_dual {alpha beta v x : FVal}
    (hvb : v < beta) (h : x ≤ v) : clamp alpha beta x = clamp alpha v x := by
  unfold clamp
  rw [min_eq_right (le_trans h hvb.le), min_eq_right h]

/-- The move loop of `min_value` agrees, inside the window, with the unpruned
minimizing fold, provided every child does. -/
theorem minLoop_clamp (alpha : FVal) (child : FVal → Move → FVal)
    (fullchild : Move → FVal)
    (hchild : ∀ (b : FVal) (m : Move), alpha < b →
      clamp alpha b (child b m) = clamp alpha b (fullchild m)) :
    ∀ (moves : List Move) (beta v : FVal) (best : Option Move),
      alpha < beta → alpha < v →
      clamp alpha beta (minLoopF alpha child moves beta v best).2
        = clamp alpha beta (fullMinLoopF fullchild moves v) := by
  intro moves
  induction moves with
  | nil => intro beta v best _ _; rfl
  | cons m rest ih =>
    intro beta v best hab hav
    simp only [minLoopF, fullMinLoopF]
    by_cases hup : child beta m < v
    · rw [if_pos hup]
      by_cases hprune : child beta m ≤ alpha
      · rw [if_pos hprune]
        show clamp alpha beta (child beta m)
          = clamp alpha beta (fullMinLoopF fullchild rest (min v (fullchild m)))
        have hG : fullchild m ≤ alpha := by
          have hc := hchild beta m hab
          rw [clamp_eq_alpha hprune] at hc
          exact clamp_inv_alpha hab hc.symm
        have hge : fullMinLoopF fullchild rest (min v (fullchild m)) ≤ alpha :=
          le_trans (le_trans (fullMinLoopF_le _ _ _) (min_le_right _ _)) hG
        rw [clamp_eq_alpha hprune, clamp_eq_alpha hge]
      · rw [if_neg hprune]
        push_neg at hprune
        rcases le_or_lt beta (child beta m) with hcb | hcb
        · rw [min_eq_left hcb]
          rw [ih beta (child beta m) (some m) hab hprune]
          rw [fullMinLoopF_decomp fullchild rest (child beta m),
            fullMinLoopF_decomp fullchild rest (min v (fullchild m)),
            clamp_min_hom, clamp_min_hom, clamp_min_hom]
          rw [← hchild beta m hab]
          rw [min_eq_right (clamp_mono hup.le)]
        · rw [min_eq_right hcb.le]
          have hGv : fullchild m = child beta m := by
            have hc := hchild beta m hab
            rw [clamp_eq_self hprune.le hcb.le] at hc
            exact clamp_inv_mid hprune hcb hc.symm
          rw [hGv, min_eq_right hup.le]
          have hL := minLoopF_val_le alpha child rest (child beta m)
            (child beta m) (some m)
          have hR := fullMinLoopF_le fullchild rest (child beta m)
          rw [clamp_shift_dual hcb hL, clamp_shift_dual hcb hR]
          exact ih (child beta m) (child beta m) (some m) hprune hprune
    · rw [if_neg hup]
      rw [if_neg (not_le.mpr hav)]
      rw [ih beta v best hab hav]
      rw [fullMinLoopF_decomp fullchild rest v,
        fullMinLoopF_decomp fullchild rest (min v (fullchild m)),
        clamp_min_hom, clamp_min_hom, clamp_min_hom]
      rw [← hchild beta m hab]
      push_neg at hup
      rw [min_eq_left (clamp_mono hup)]

/-- Inside any window, pruned `max_value` / `min_value` agree with the
unpruned `fullMax` / `fullMin` at every fuel. -/
theorem minimax_clamp (cfg : MinimaxCfg) :
    ∀ (fuel : Nat) (s : GameState) (alpha beta : FVal), alpha < beta →
      clamp alpha beta (maxValue cfg fuel s alpha beta).2
          = clamp alpha beta (fullMax cfg fuel s)
      ∧ clamp alpha beta (minValue cfg fuel s alpha beta).2
          = clamp alpha beta (fullMin cfg fuel s) := by
  intro fuel
  induction fuel with
  | zero =>
    intro s alpha beta hab
    constructor <;>
      · simp only [maxValue, minValue, fullMax, fullMin]
        by_cases hov : s.isOver = true
        · rw [if_pos hov, if_pos hov]
        · rw [if_neg hov, if_neg hov]
  | succ fuel ih =>
    intro s alpha beta hab
    constructor
    · by_cases hov : s.isOver = true
      · simp only [maxValue, fullMax]
        rw [if_pos hov, if_pos hov]
      · simp only [maxValue, fullMax]
        rw [if_neg hov, if_neg hov]
        refine maxLoop_clamp beta _ _ ?_ (cfg.moveOrderer s) alpha ⊥ none hab
          (lt_of_le_of_lt bot_le hab)
        intro a m ha
        show clamp a beta (if ((s.makeMove m).getD s).turn == s.turn
            then (maxValue cfg fuel ((s.makeMove m).getD s) a beta).2
            else (minValue cfg fuel ((s.makeMove m).getD s) a beta).2)
          = clamp a beta (if ((s.makeMove m).getD s).turn == s.turn
            then fullMax cfg fuel ((s.makeMove m).getD s)
            else fullMin cfg fuel ((s.makeMove m).getD s))
        by_cases hns : (((s.makeMove m).getD s).turn == s.turn) = true
        · rw [if_pos hns, if_pos hns]
          exact (ih ((s.makeMove m).getD s) a beta ha).1
        · rw [if_neg hns, if_neg hns]
          exact (ih ((s.makeMove m).getD s) a beta ha).2
    · by_cases hov : s.isOver = true
      · simp only [minValue, fullMin]
        rw [if_pos hov, if_pos hov]
      · simp only [minValue, fullMin]
        rw [if_neg hov, if_neg hov]
        refine minLoop_clamp alpha _ _ ?_ (cfg.moveOrderer s) beta ⊤ none hab
          (lt_of_lt_of_le hab le_top)
        intro b m hb
        show clamp alpha b (if ((s.makeMove m).getD s).turn == s.turn
            then (minValue cfg fuel ((s.makeMove m).getD s) alpha b).2
            else (maxValue cfg fuel ((s.makeMove m).getD s) alpha b).2)
          = clamp alpha b (if ((s.makeMove m).getD s).turn == s.turn
            then fullMin cfg fuel ((s.makeMove m).getD s)
            else fullMax cfg fuel ((s.makeMove m).getD s))
        by_cases hns : (((s.makeMove m).getD s).turn == s.turn) = true
        · rw [if_pos hns, if_pos hns]
          exact (ih ((s.makeMove m).getD s) alpha b hb).2
        · rw [if_neg hns, if_neg hns]
          exact (ih ((s.makeMove m).getD s) alpha b hb).1

/-- C1: from the root window `alpha = -inf`, `beta = +inf`, the alpha-beta
pruned `max_value` — hence `search_utility` — computes exactly the utility of
the exhaustive unpruned full-depth minimax (`fullMax`) from the same state,
for every state, every depth budget and every configuration (same move order,
evaluator and heuristic); in particular for depth budgets that exhaust the
game tree of a small board. -/
theorem c1_alphabeta_eq_full (cfg : MinimaxCfg) (s : GameState) (fuel : Nat) :
    (maxValue cfg fuel s ⊥ ⊤).2 = fullMax cfg fuel s
    ∧ searchUtility cfg s fuel
        = (maxValue cfg fuel s ⊥ ⊤).1.map (fun m => (m, fullMax cfg fuel s)) := by
  have hbt : (⊥ : FVal) < ⊤ := by decide
  have h := (minimax_clamp cfg fuel s ⊥ ⊤ hbt).1
  have hid : ∀ x : FVal, clamp ⊥ ⊤ x = x := by
    intro x
    unfold clamp
    rw [min_eq_right le_top, max_eq_right bot_le]
  rw [hid, hid] at h
  refine ⟨h, ?_⟩
  unfold searchUtility
  rcases hmv : maxValue cfg fuel s ⊥ ⊤ with ⟨bm, u⟩
  have hu : u = fullMax cfg fuel s := by
    rw [← h, hmv]
  cases bm
  · simp
  · simp [hu]

/-! When does the search produce a move?  Ruling out `-inf` values. -/

theorem ofInt_ne_bot (q : Int) : FVal.ofInt q ≠ ⊥ :=
  WithBot.coe_ne_bot

theorem evaluate_ne_bot (cfg : MinimaxCfg) (s : GameState) :
    evaluate cfg s ≠ ⊥ := ofInt_ne_bot _

theorem getHeuristic_ne_bot (cfg : MinimaxCfg) (s : GameState) :
    getHeuristic cfg s ≠ ⊥ := ofInt_ne_bot _

theorem maxLoopF_ne_bot_of_v (beta : FVal) (child : FVal → Move → FVal)
    (moves : List Move) (alpha v : FVal) (best : Option Move) (hv : v ≠ ⊥) :
    (maxLoopF beta child moves alpha v best).2 ≠ ⊥ := by
  have := maxLoopF_val_ge beta child moves alpha v best
  intro hbot
  rw [hbot] at this
  exact hv (le_bot_iff.mp this)

theorem maxLoopF_ne_bot (beta : FVal) (child : FVal → Move → FVal)
    (m : Move) (rest : List Move) (alpha v : FVal) (best : Option Move)
    (hc : ∀ a : FVal, child a m ≠ ⊥) :
    (maxLoopF beta child (m :: rest) alpha v best).2 ≠ ⊥ := by
  simp only [maxLoopF]
  by_cases hup : v < child alpha m
  · rw [if_pos hup]
    by_cases hprune : beta ≤ child alpha m
    · rw [if_pos hprune]
      exact hc alpha
    · rw [if_neg hprune]
      exact maxLoopF_ne_bot_of_v _ _ _ _ _ _ (hc alpha)
  · rw [if_neg hup]
    push_neg at hup
    have hv : v ≠ ⊥ := by
      intro hbot
      rw [hbot] at hup
      exact hc alpha (le_bot_iff.mp hup)
    by_cases hprune : beta ≤ v
    · rw [if_pos hprune]
      exact hv
    · rw [if_neg hprune]
      exact maxLoopF_ne_bot_of_v _ _ _ _ _ _ hv

theorem minLoopF_ne_bot (alpha : FVal) (child : FVal → Move → FVal) :
    ∀ (moves : List Move) (beta v : FVal) (best : Option Move),
      (∀ m ∈ moves, ∀ b : FVal, child b m ≠ ⊥) → v ≠ ⊥ →
      (minLoopF alpha child moves beta v best).2 ≠ ⊥ := by
  intro moves
  induction moves with
  | nil => intro beta v best _ hv; exact hv
  | cons m rest ih =>
    intro beta v best hc hv
    simp only [minLoopF]
    by_cases hup : child beta m < v
    · rw [if_pos hup]
      by_cases hprune : child beta m ≤ alpha
      · rw [if_pos hprune]
        exact hc m (List.mem_cons_self ..) beta
      · rw [if_neg hprune]
        exact ih _ _ _ (fun x hx b => hc x (List.mem_cons_of_mem m hx) b)
          (hc m (List.mem_cons_self ..) beta)
    · rw [if_neg hup]
      by_cases hprune : v ≤ alpha
      · rw [if_pos hprune]
        exact hv
      · rw [if_neg hprune]
        exact ih _ _ _ (fun x hx b => hc x (List.mem_cons_of_mem m hx) b) hv

theorem maxLoopF_best_some (beta : FVal) (child : FVal → Move → FVal) :
    ∀ (moves : List Move) (alpha v : FVal) (b : Move),
      (maxLoopF beta child moves alpha v (some b)).1.isSome = true := by
  intro moves
  induction moves with
  | nil => intro alpha v b; rfl
  | cons m rest ih =>
    intro alpha v b
    simp only [maxLoopF]
    by_cases hup : v < child alpha m
    · rw [if_pos hup]
      by_cases hprune : beta ≤ child alpha m
      · rw [if_pos hprune]
        rfl
      · rw [if_neg hprune]
        exact ih _ _ _
    · rw [if_neg hup]
      by_cases hprune : beta ≤ v
      · rw [if_pos hprune]
        rfl
      · rw [if_neg hprune]
        exact ih _ _ _

theorem maxLoopF_isSome (beta : FVal) (child : FVal → Move → FVal)
    (m : Move) (rest : List Move) (alpha : FVal)
    (hc : ∀ a : FVal, child a m ≠ ⊥) :
    (maxLoopF beta child (m :: rest) alpha ⊥ none).1.isSome = true := by
  simp only [maxLoopF]
  have hup : (⊥ : FVal) < child alpha m :=
    bot_lt_iff_ne_bot.mpr (hc alpha)
  rw [if_pos hup]
  by_cases hprune : beta ≤ child alpha m
  · rw [if_pos hprune]
    rfl
  · rw [if_neg hprune]
    exact maxLoopF_best_some _ _ _ _ _ _

theorem getD_set_ne (l : List Nat) (i j x : Nat) (hne : j ≠ i) :
    (l.set i x).getD j 0 = l.getD j 0 := by
  induction l generalizing i j with
  | nil => rfl
  | cons a as ih =>
    cases i with
    | zero =>
      cases j with
      | zero => exact absurd rfl hne
      | succ j2 => simp [List.set_cons_zero, List.getD_cons_succ]
    | succ i2 =>
      cases j with
      | zero => simp [List.set_cons_succ, List.getD_cons_zero]
      | succ j2 =>
        simp only [List.set_cons_succ, List.getD_cons_succ]
        exact ih i2 j2 (by omega)

theorem getD_set_zero_self (l : List Nat) (i : Nat) :
    (l.set i 0).getD i 0 = 0 := by
  rcases Nat.lt_or_ge i l.length with h | h
  · exact getD_set_self l i 0 h
  · rw [List.set_eq_of_length_le h, List.getD_eq_default _ _ h]

theorem sweepFold_other (w : Player) :
    ∀ (l : List Nat) (st : GameState),
      ((l.foldl (fun acc pit =>
        let acc1 := acc.addStore w ((acc.row w).getD pit 0)
        acc1.setRow w ((acc1.row w).set pit 0)) st).row w.other)
        = st.row w.other := by
  intro l
  induction l with
  | nil => intro st; rfl
  | cons x xs ih =>
    intro st
    rw [List.foldl_cons, ih]
    cases w <;> rfl

theorem sweepFold_zero (w : Player) :
    ∀ (k : Nat) (st : GameState) (j : Nat), j < k →
      (((List.range k).foldl (fun acc pit =>
        let acc1 := acc.addStore w ((acc.row w).getD pit 0)
        acc1.setRow w ((acc1.row w).set pit 0)) st).row w).getD j 0 = 0 := by
  intro k
  induction k with
  | zero => intro st j hj; exact absurd hj (Nat.not_lt_zero j)
  | succ k ih =>
    intro st j hj
    rw [List.range_succ, List.foldl_append]
    simp only [List.foldl_cons, List.foldl_nil]
    have hrow : ∀ (acc : GameState),
        (((acc.addStore w ((acc.row w).getD k 0)).setRow w
          (((acc.addStore w ((acc.row w).getD k 0)).row w).set k 0)).row w)
          = (acc.row w).set k 0 := by
      intro acc
      cases w <;> rfl
    rw [hrow]
    rcases Nat.lt_or_ge j k with hjk | hjk
    · rw [getD_set_ne _ _ _ _ (by omega)]
      exact ih st j hjk
    · have hjeq : j = k := by omega
      rw [hjeq]
      exact getD_set_zero_self _ k

theorem sweepFold_row_length (w : Player) (l : List Nat) (st : GameState) :
    ((l.foldl (fun acc pit =>
      let acc1 := acc.addStore w ((acc.row w).getD pit 0)
      acc1.setRow w ((acc1.row w).set pit 0)) st).row w).length
      = (st.row w).length := by
  have h := sweepFold_sameShape w l st
  cases w
  · exact h.2.2.2.1
  · exact h.2.2.2.2

theorem sum_zero_of_getD (l : List Nat)
    (h : ∀ j, j < l.length → l.getD j 0 = 0) : l.sum = 0 := by
  apply List.sum_eq_zero_iff.mpr
  intro x hx
  rcases List.mem_iff_getElem.mp hx with ⟨j, hj, hjx⟩
  have hz := h j hj
  rw [List.getD_eq_getElem l 0 hj] at hz
  rw [← hjx]
  exact hz

/-- The end-of-board sweep leaves a balanced state: as soon as one row is
empty the other is swept empty too. -/
theorem sweep_balanced (st : GameState)
    (hlen2 : st.board2.length = st.pits) :
    (GameState.sweep st).balanced := by
  unfold GameState.sweep
  by_cases h1 : (st.board1.sum == 0) = true
  · simp only [h1, if_true]
    left
    constructor
    · show (((List.range st.pits).foldl (fun acc pit =>
        let acc1 := acc.addStore Player.two ((acc.row Player.two).getD pit 0)
        acc1.setRow Player.two ((acc1.row Player.two).set pit 0)) st).row
          Player.two.other).sum = 0
      rw [sweepFold_other Player.two _ st]
      exact Nat.beq_eq_true_eq _ _ ▸ h1
    · show (((List.range st.pits).foldl (fun acc pit =>
        let acc1 := acc.addStore Player.two ((acc.row Player.two).getD pit 0)
        acc1.setRow Player.two ((acc1.row Player.two).set pit 0)) st).row
          Player.two).sum = 0
      apply sum_zero_of_getD
      intro j hj
      rw [sweepFold_row_length Player.two _ st] at hj
      exact sweepFold_zero Player.two st.pits st j
        (by show j < st.pits; rw [← hlen2]; exact hj)
  · by_cases h2 : (st.board2.sum == 0) = true
    · simp only [if_neg h1, h2, if_true]
      left
      constructor
      · show (((List.range st.pits).foldl (fun acc pit =>
          let acc1 := acc.addStore Player.one ((acc.row Player.one).getD pit 0)
          acc1.setRow Player.one ((acc1.row Player.one).set pit 0)) st).row
            Player.one).sum = 0
        apply sum_zero_of_getD
        intro j hj
        rw [sweepFold_row_length Player.one _ st] at hj
        exact sweepFold_zero Player.one st.pits st j hj
      · show (((List.range st.pits).foldl (fun acc pit =>
          let acc1 := acc.addStore Player.one ((acc.row Player.one).getD pit 0)
          acc1.setRow Player.one ((acc1.row Player.one).set pit 0)) st).row
            Player.one.other).sum = 0
        rw [sweepFold_other Player.one _ st]
        exact Nat.beq_eq_true_eq _ _ ▸ h2
    · simp only [if_neg h1, if_neg h2]
      right
      constructor
      · exact Nat.pos_of_ne_zero (by simpa using h1)
      · exact Nat.pos_of_ne_zero (by simpa using h2)

theorem zeroPit_len (s : GameState) (n : Nat) :
    (s.setRow s.turn ((s.row s.turn).set (n-1) 0)).board1.length
        = s.board1.length
    ∧ (s.setRow s.turn ((s.row s.turn).set (n-1) 0)).board2.length
        = s.board2.length := by
  cases ht : s.turn <;>
    simp [GameState.setRow, GameState.row, List.length_set]

theorem makeMove_len {s s2 : GameState} {m : Move}
    (h : s.makeMove m = some s2)
    (hlen : s.board1.length = s.board2.length) :
    s2.board1.length = s2.board2.length := by
  cases m with
  | swap =>
    simp only [GameState.makeMove] at h
    split at h
    · exact Option.noConfusion h
    · rw [Option.some_inj] at h
      rw [← h]
      show s.board2.length = s.board1.length
      exact hlen.symm
  | pit n =>
    simp only [GameState.makeMove] at h
    split at h
    · exact Option.noConfusion h
    · split at h
      · exact Option.noConfusion h
      · rw [Option.some_inj] at h
        rw [← h]
        have hz := zeroPit_len s n
        have hsow := sow_sameShape s.turn ((s.row s.turn).getD (n-1) 0)
          (s.setRow s.turn ((s.row s.turn).set (n-1) 0)) s.turn n false
        have hsw1 := (sweep_sameShape (GameState.sow s.turn
          ((s.row s.turn).getD (n-1) 0)
          (s.setRow s.turn ((s.row s.turn).set (n-1) 0)) s.turn n
          false).1).2.2.2.1
        have hsw2 := (sweep_sameShape (GameState.sow s.turn
          ((s.row s.turn).getD (n-1) 0)
          (s.setRow s.turn ((s.row s.turn).set (n-1) 0)) s.turn n
          false).1).2.2.2.2
        split
        · show (GameState.sweep _).board1.length
            = (GameState.sweep _).board2.length
          rw [hsw1, hsw2, hsow.2.2.2.1, hsow.2.2.2.2, hz.1, hz.2]
          exact hlen
        · show (GameState.sweep _).board1.length
            = (GameState.sweep _).board2.length
          rw [hsw1, hsw2, hsow.2.2.2.1, hsow.2.2.2.2, hz.1, hz.2]
          exact hlen

theorem makeMove_pit_balanced {s s2 : GameState} {n : Nat}
    (h : s.makeMove (Move.pit n) = some s2)
    (hlen : s.board1.length = s.board2.length) :
    s2.balanced := by
  simp only [GameState.makeMove] at h
  split at h
  · exact Option.noConfusion h
  · split at h
    · exact Option.noConfusion h
    · rw [Option.some_inj] at h
      rw [← h]
      have hz := zeroPit_len s n
      have hsow := sow_sameShape s.turn ((s.row s.turn).getD (n-1) 0)
        (s.setRow s.turn ((s.row s.turn).set (n-1) 0)) s.turn n false
      have hcond : (GameState.sow s.turn ((s.row s.turn).getD (n-1) 0)
          (s.setRow s.turn ((s.row s.turn).set (n-1) 0)) s.turn n
          false).1.board2.length
          = (GameState.sow s.turn ((s.row s.turn).getD (n-1) 0)
          (s.setRow s.turn ((s.row s.turn).set (n-1) 0)) s.turn n
          false).1.pits := by
        show _ = (GameState.sow s.turn ((s.row s.turn).getD (n-1) 0)
          (s.setRow s.turn ((s.row s.turn).set (n-1) 0)) s.turn n
          false).1.board1.length
        rw [hsow.2.2.2.1, hsow.2.2.2.2, hz.1, hz.2]
        exact hlen.symm
      split
      · show (GameState.sweep _).balanced
        exact sweep_balanced _ hcond
      · show (GameState.sweep _).balanced
        exact sweep_balanced _ hcond

theorem makeMove_swap_eq (s : GameState) (hsw : s.swapAllowed = true) :
    s.makeMove Move.swap = some s.rotateBoard.switchTurn.incPly := by
  simp only [GameState.makeMove]
  rw [if_neg (by rw [hsw]; exact Bool.false_ne_true)]

theorem swap_child_balanced {s : GameState} (hb : s.balanced) :
    (s.rotateBoard.switchTurn.incPly).balanced := by
  rcases hb with ⟨h1, h2⟩ | ⟨h1, h2⟩
  · exact Or.inl ⟨h2, h1⟩
  · exact Or.inr ⟨h2, h1⟩

theorem valid_move_isSome (s : GameState)
    (hlen : s.board1.length = s.board2.length) (m : Move)
    (hm : m ∈ s.validMoves) : (s.makeMove m).isSome = true := by
  cases m with
  | pit n =>
    rcases (pit_mem_validMoves s n).mp hm with ⟨h1, h2, h3⟩
    rw [makeMove_pit_isSome_iff]
    rw [row_turn_length s hlen] at h2
    exact ⟨h1, by omega, h3⟩
  | swap =>
    rw [makeMove_swap_isSome]
    exact (swap_mem_validMoves s).mp hm

theorem validMoves_ne_nil {s : GameState} (hb : s.balanced)
    (hov : s.isOver ≠ true) : s.validMoves ≠ [] := by
  have hpos : 0 < (s.row s.turn).sum := by
    rcases hb with ⟨h1, h2⟩ | ⟨h1, h2⟩
    · exact absurd ((isOver_iff_sums_zero s).mpr ⟨h1, h2⟩) hov
    · cases ht : s.turn
      · exact h1
      · exact h2
  have hex : ∃ j, j < (s.row s.turn).length ∧ 0 < (s.row s.turn).getD j 0 := by
    by_contra hcon
    push_neg at hcon
    have hzero : (s.row s.turn).sum = 0 :=
      sum_zero_of_getD _ (fun j hj => by have := hcon j hj; omega)
    omega
  rcases hex with ⟨j, hj1, hj2⟩
  intro hnil
  have hmem := (pit_mem_validMoves s (j+1)).mpr
    ⟨by omega, by simpa using hj1, by simpa using hj2⟩
  rw [hnil] at hmem
  exact List.not_mem_nil _ hmem

/-- On a balanced state (both rows empty or both non-empty) the search values
are never `-inf`: the move loops always see either a terminal or cut-off
evaluation, or a non-empty list of moves whose children are balanced again. -/
theorem balanced_value_ne_bot (cfg : MinimaxCfg)
    (hord : cfg.moveOrderer = defaultMoveOrderer) :
    ∀ (fuel : Nat) (s : GameState), s.balanced →
      s.board1.length = s.board2.length →
      ∀ (alpha beta : FVal),
        (maxValue cfg fuel s alpha beta).2 ≠ ⊥
        ∧ (minValue cfg fuel s alpha beta).2 ≠ ⊥ := by
  intro fuel
  induction fuel with
  | zero =>
    intro s hb hlen alpha beta
    constructor <;>
      · simp only [maxValue, minValue]
        by_cases hov : s.isOver = true
        · rw [if_pos hov]
          exact evaluate_ne_bot cfg s
        · rw [if_neg hov]
          exact getHeuristic_ne_bot cfg s
  | succ fuel ih =>
    intro s hb hlen alpha beta
    have hns : ∀ m ∈ s.validMoves, ∃ ns, s.makeMove m = some ns ∧
        ns.balanced ∧ ns.board1.length = ns.board2.length := by
      intro m hm
      rcases Option.isSome_iff_exists.mp (valid_move_isSome s hlen m hm)
        with ⟨ns, hns0⟩
      refine ⟨ns, hns0, ?_, makeMove_len hns0 hlen⟩
      cases m with
      | pit n => exact makeMove_pit_balanced hns0 hlen
      | swap =>
        have hsw := (swap_mem_validMoves s).mp hm
        rw [makeMove_swap_eq s hsw, Option.some_inj] at hns0
        rw [← hns0]
        exact swap_child_balanced hb
    constructor
    · by_cases hov : s.isOver = true
      · simp only [maxValue]
        rw [if_pos hov]
        exact evaluate_ne_bot cfg s
      · simp only [maxValue]
        rw [if_neg hov, hord]
        rcases hlist : s.validMoves with _ | ⟨m0, rest⟩
        · exact absurd hlist (validMoves_ne_nil hb hov)
        · have hord2 : defaultMoveOrderer s = m0 :: rest := hlist
          rw [hord2]
          apply maxLoopF_ne_bot
          intro a
          have hm0 : m0 ∈ s.validMoves := by
            rw [hlist]
            exact List.mem_cons_self ..
          rcases hns m0 hm0 with ⟨ns, hns0, hbal, hlen0⟩
          show (if ((s.makeMove m0).getD s).turn == s.turn
            then (maxValue cfg fuel ((s.makeMove m0).getD s) a beta).2
            else (minValue cfg fuel ((s.makeMove m0).getD s) a beta).2) ≠ ⊥
          rw [hns0]
          simp only [Option.getD_some]
          by_cases hturn : (ns.turn == s.turn) = true
          · rw [if_pos hturn]
            exact (ih ns hbal hlen0 a beta).1
          · rw [if_neg hturn]
            exact (ih ns hbal hlen0 a beta).2
    · by_cases hov : s.isOver = true
      · simp only [minValue]
        rw [if_pos hov]
        exact evaluate_ne_bot cfg s
      · simp only [minValue]
        rw [if_neg hov, hord]
        apply minLoopF_ne_bot
        · intro m hm b
          rcases hns m hm with ⟨ns, hns0, hbal, hlen0⟩
          show (if ((s.makeMove m).getD s).turn == s.turn
            then (minValue cfg fuel ((s.makeMove m).getD s) alpha b).2
            else (maxValue cfg fuel ((s.makeMove m).getD s) alpha b).2) ≠ ⊥
          rw [hns0]
          simp only [Option.getD_some]
          by_cases hturn : (ns.turn == s.turn) = true
          · rw [if_pos hturn]
            exact (ih ns hbal hlen0 alpha b).2
          · rw [if_neg hturn]
            exact (ih ns hbal hlen0 alpha b).1
        · exact (by decide : (⊤ : FVal) ≠ ⊥)

/-- A state that cannot offer the swap move (in particular the successor of a
swap, at ply 3) has only pit moves, whose children are balanced; its
`min_value` is therefore never `-inf`. -/
theorem minValue_pit_only_ne_bot (cfg : MinimaxCfg)
    (hord : cfg.moveOrderer = defaultMoveOrderer)
    (u : GameState) (hlenu : u.board1.length = u.board2.length)
    (hsw : u.swapAllowed = false) :
    ∀ (fuel : Nat) (alpha beta : FVal),
      (minValue cfg fuel u alpha beta).2 ≠ ⊥ := by
  intro fuel alpha beta
  cases fuel with
  | zero =>
    simp only [minValue]
    by_cases hov : u.isOver = true
    · rw [if_pos hov]
      exact evaluate_ne_bot cfg u
    · rw [if_neg hov]
      exact getHeuristic_ne_bot cfg u
  | succ fuel =>
    by_cases hov : u.isOver = true
    · simp only [minValue]
      rw [if_pos hov]
      exact evaluate_ne_bot cfg u
    · simp only [minValue]
      rw [if_neg hov, hord]
      apply minLoopF_ne_bot
      · intro m hm b
        cases m with
        | swap =>
          exfalso
          have hmem := (swap_mem_validMoves u).mp hm
          rw [hsw] at hmem
          exact Bool.noConfusion hmem
        | pit n =>
          have hmem : Move.pit n ∈ u.validMoves := hm
          rcases Option.isSome_iff_exists.mp
            (valid_move_isSome u hlenu _ hmem) with ⟨ns, hns0⟩
          have hbal := makeMove_pit_balanced hns0 hlenu
          have hlen0 := makeMove_len hns0 hlenu
          show (if ((u.makeMove (Move.pit n)).getD u).turn == u.turn
            then (minValue cfg fuel ((u.makeMove (Move.pit n)).getD u)
              alpha b).2
            else (maxValue cfg fuel ((u.makeMove (Move.pit n)).getD u)
              alpha b).2) ≠ ⊥
          rw [hns0]
          simp only [Option.getD_some]
          by_cases hturn : (ns.turn == u.turn) = true
          · rw [if_pos hturn]
            exact (balanced_value_ne_bot cfg hord fuel ns hbal hlen0 alpha b).2
          · rw [if_neg hturn]
            exact (balanced_value_ne_bot cfg hord fuel ns hbal hlen0 alpha b).1
      · exact (by decide : (⊤ : FVal) ≠ ⊥)

/-- C6 counterexample: with `max_depth = Some 0` (a legitimate search
configuration) the search returns `None` from the default starting state even
though legal moves exist and the game is not over. -/
theorem c6_counterexample :
    searchUtility defaultCfg defaultStart 0 = none
    ∧ defaultStart.validMoves ≠ []
    ∧ defaultStart.isOver = false := by decide

/-- C6 amended: with the default move orderer, real-valued (here integer)
evaluator and heuristic, no time limit, and a depth budget of at least 1,
`search_utility` (hence `search`) returns `None` exactly when the state is
terminal or `valid_moves` is empty.  (The original claim fails for
`max_depth = Some 0`, and "no legal moves" must be read this way because a
terminal ply-2 state can still offer `Swap`.) -/
theorem c6_search_none_iff (cfg : MinimaxCfg)
    (hord : cfg.moveOrderer = defaultMoveOrderer)
    (s : GameState) (hlen : s.board1.length = s.board2.length) (d : Nat) :
    searchUtility cfg s (d+1) = none ↔
      (s.isOver = true ∨ s.validMoves = []) := by
  have hnone : searchUtility cfg s (d+1) = none ↔
      (maxValue cfg (d+1) s ⊥ ⊤).1 = none := by
    unfold searchUtility
    rcases hmm : maxValue cfg (d+1) s ⊥ ⊤ with ⟨bm, u⟩
    cases bm <;> simp
  rw [hnone]
  constructor
  · intro h
    by_contra hcon
    push_neg at hcon
    obtain ⟨hov, hmv⟩ := hcon
    have hsome : (maxValue cfg (d+1) s ⊥ ⊤).1.isSome = true := by
      simp only [maxValue]
      rw [if_neg hov, hord]
      rcases hlist : s.validMoves with _ | ⟨m0, rest⟩
      · exact absurd hlist hmv
      · have hord2 : defaultMoveOrderer s = m0 :: rest := hlist
        rw [hord2]
        apply maxLoopF_isSome
        intro a
        have hm0 : m0 ∈ s.validMoves := by
          rw [hlist]
          exact List.mem_cons_self ..
        rcases Option.isSome_iff_exists.mp (valid_move_isSome s hlen m0 hm0)
          with ⟨ns, hns0⟩
        show (if ((s.makeMove m0).getD s).turn == s.turn
          then (maxValue cfg d ((s.makeMove m0).getD s) a ⊤).2
          else (minValue cfg d ((s.makeMove m0).getD s) a ⊤).2) ≠ ⊥
        rw [hns0]
        simp only [Option.getD_some]
        cases m0 with
        | pit n =>
          have hbal := makeMove_pit_balanced hns0 hlen
          have hlen0 := makeMove_len hns0 hlen
          by_cases hturn : (ns.turn == s.turn) = true
          · rw [if_pos hturn]
            exact (balanced_value_ne_bot cfg hord d ns hbal hlen0 a ⊤).1
          · rw [if_neg hturn]
            exact (balanced_value_ne_bot cfg hord d ns hbal hlen0 a ⊤).2
        | swap =>
          have hswal := (swap_mem_validMoves s).mp hm0
          have hnseq : ns = s.rotateBoard.switchTurn.incPly := by
            rw [makeMove_swap_eq s hswal, Option.some_inj] at hns0
            exact hns0.symm
          have hturn : (ns.turn == s.turn) = false := by
            rw [hnseq]
            show (s.turn.other == s.turn) = false
            cases s.turn <;> rfl
          rw [if_neg (by rw [hturn]; exact Bool.false_ne_true)]
          apply minValue_pit_only_ne_bot cfg hord ns ?_ ?_ d a ⊤
          · rw [hnseq]
            show s.board2.length = s.board1.length
            exact hlen.symm
          · rw [hnseq]
            have hply : s.ply = 2 := by
              have h2 := hswal
              simp only [GameState.swapAllowed] at h2
              rw [Bool.and_eq_true] at h2
              exact by simpa using h2.2
            show (s.rotateBoard.switchTurn.incPly.turn == Player.two &&
              (s.ply + 1 == 2)) = false
            rw [hply]
            simp
    rw [h] at hsome
    exact Bool.noConfusion hsome
  · rintro (hov | hmv)
    · simp only [maxValue]
      rw [if_pos hov]
    · simp only [maxValue]
      by_cases hov : s.isOver = true
      · rw [if_pos hov]
      · rw [if_neg hov, hord]
        have hord2 : defaultMoveOrderer s = [] := hmv
        rw [hord2]
        rfl

/-- Witness for the amended C6 at the default configuration and start. -/
theorem c6_search_none_iff_witness :
    searchUtility defaultCfg defaultStart 1 = none ↔
      (defaultStart.isOver = true ∨ defaultStart.validMoves = []) :=
  c6_search_none_iff defaultCfg rfl defaultStart (by decide) 0

/-! The capture rule end to end through `make_move`: after the capture of the
final sowing iteration, the end-of-board sweep may move further stones from
the mover's remaining row into the mover's store before the state is
returned. -/

theorem completion_row (X : GameState) (g : Bool) (p : Player) :
    ((if !g then X.switchTurn else X).incPly).row p = X.row p := by
  cases g <;> cases p <;> rfl

theorem completion_store (X : GameState) (g : Bool) (p : Player) :
    ((if !g then X.switchTurn else X).incPly).store p = X.store p := by
  cases g <;> cases p <;> rfl

theorem sweepFold_getD_ge (w : Player) :
    ∀ (k : Nat) (st : GameState) (j : Nat), k ≤ j →
      (((List.range k).foldl (fun acc pit =>
        let acc1 := acc.addStore w ((acc.row w).getD pit 0)
        acc1.setRow w ((acc1.row w).set pit 0)) st).row w).getD j 0
        = (st.row w).getD j 0 := by
  intro k
  induction k with
  | zero => intro st j hj; simp
  | succ k ih =>
    intro st j hj
    rw [List.range_succ, List.foldl_append]
    simp only [List.foldl_cons, List.foldl_nil]
    have hrow : ∀ (acc : GameState),
        (((acc.addStore w ((acc.row w).getD k 0)).setRow w
          (((acc.addStore w ((acc.row w).getD k 0)).row w).set k 0)).row w)
          = (acc.row w).set k 0 := by
      intro acc
      cases w <;> rfl
    rw [hrow, getD_set_ne _ _ _ _ (by omega)]
    exact ih st j (by omega)

theorem sweepFold_store_other (w : Player) :
    ∀ (l : List Nat) (st : GameState),
      ((l.foldl (fun acc pit =>
        let acc1 := acc.addStore w ((acc.row w).getD pit 0)
        acc1.setRow w ((acc1.row w).set pit 0)) st).store w.other)
        = st.store w.other := by
  intro l
  induction l with
  | nil => intro st; rfl
  | cons x xs ih =>
    intro st
    rw [List.foldl_cons, ih]
    cases w <;> rfl

theorem sweepFold_store_self (w : Player) :
    ∀ (k : Nat) (st : GameState),
      ((List.range k).foldl (fun acc pit =>
        let acc1 := acc.addStore w ((acc.row w).getD pit 0)
        acc1.setRow w ((acc1.row w).set pit 0)) st).store w
        = st.store w
          + ((List.range k).map (fun j => (st.row w).getD j 0)).sum := by
  intro k
  induction k with
  | zero => intro st; simp
  | succ k ih =>
    intro st
    rw [List.range_succ, List.foldl_append, List.map_append, List.sum_append]
    simp only [List.foldl_cons, List.foldl_nil, List.map_cons, List.map_nil,
      List.sum_cons, List.sum_nil]
    have hstep : ∀ (acc : GameState),
        (((acc.addStore w ((acc.row w).getD k 0)).setRow w
          (((acc.addStore w ((acc.row w).getD k 0)).row w).set k 0)).store w)
          = acc.store w + (acc.row w).getD k 0 := by
      intro acc
      cases w <;> rfl
    rw [hstep, ih st, sweepFold_getD_ge w k st k (Nat.le_refl k)]
    omega

theorem map_getD_range_sum (l : List Nat) :
    ((List.range l.length).map (fun j => l.getD j 0)).sum = l.sum := by
  induction l with
  | nil => rfl
  | cons a as ih =>
    rw [List.length_cons, List.range_succ_eq_map]
    simp only [List.map_cons, List.map_map, List.sum_cons]
    have hf : ((fun j => (a :: as).getD j 0) ∘ (· + 1))
        = fun j => as.getD j 0 := by
      funext j
      simp [List.getD_cons_succ]
    rw [List.getD_cons_zero, hf, ih]

theorem sweep_row_zero (R : GameState) (p : Player) (j : Nat)
    (hz : (R.row p).getD j 0 = 0) :
    ((GameState.sweep R).row p).getD j 0 = 0 := by
  unfold GameState.sweep
  by_cases h1 : (R.board1.sum == 0) = true
  · simp only [h1, if_true]
    cases p
    · show ((((List.range R.pits).foldl (fun acc pit =>
        let acc1 := acc.addStore Player.two ((acc.row Player.two).getD pit 0)
        acc1.setRow Player.two ((acc1.row Player.two).set pit 0)) R).row
          Player.two.other)).getD j 0 = 0
      rw [sweepFold_other Player.two _ R]
      exact hz
    · rcases Nat.lt_or_ge j R.pits with hj | hj
      · exact sweepFold_zero Player.two R.pits R j hj
      · rw [sweepFold_getD_ge Player.two R.pits R j hj]
        exact hz
  · by_cases h2 : (R.board2.sum == 0) = true
    · simp only [if_neg h1, h2, if_true]
      cases p
      · rcases Nat.lt_or_ge j R.pits with hj | hj
        · exact sweepFold_zero Player.one R.pits R j hj
        · rw [sweepFold_getD_ge Player.one R.pits R j hj]
          exact hz
      · show ((((List.range R.pits).foldl (fun acc pit =>
          let acc1 := acc.addStore Player.one ((acc.row Player.one).getD pit 0)
          acc1.setRow Player.one ((acc1.row Player.one).set pit 0)) R).row
            Player.one.other)).getD j 0 = 0
        rw [sweepFold_other Player.one _ R]
        exact hz
    · simp only [if_neg h1, if_neg h2]
      exact hz

theorem sweep_store (R : GameState) (p : Player)
    (hrl : (R.row p).length = R.pits) :
    (GameState.sweep R).store p
      = R.store p
        + (if R.finalRecipient = some p then (R.row p).sum else 0) := by
  unfold GameState.sweep GameState.finalRecipient
  by_cases h1 : (R.board1.sum == 0) = true
  · simp only [h1, if_true]
    cases p
    · rw [if_neg (by decide)]
      show ((List.range R.pits).foldl (fun acc pit =>
        let acc1 := acc.addStore Player.two ((acc.row Player.two).getD pit 0)
        acc1.setRow Player.two ((acc1.row Player.two).set pit 0)) R).store
          Player.two.other = R.store Player.one + 0
      rw [sweepFold_store_other Player.two _ R]
      rfl
    · rw [if_pos rfl, sweepFold_store_self Player.two R.pits R, ← hrl,
        map_getD_range_sum]
  · by_cases h2 : (R.board2.sum == 0) = true
    · simp only [if_neg h1, h2, if_true]
      cases p
      · rw [if_pos rfl, sweepFold_store_self Player.one R.pits R, ← hrl,
          map_getD_range_sum]
      · rw [if_neg (by decide)]
        show ((List.range R.pits).foldl (fun acc pit =>
          let acc1 := acc.addStore Player.one ((acc.row Player.one).getD pit 0)
          acc1.setRow Player.one ((acc1.row Player.one).set pit 0)) R).store
            Player.one.other = R.store Player.two + 0
        rw [sweepFold_store_other Player.one _ R]
        rfl
    · simp only [if_neg h1, if_neg h2]
      rw [if_neg (by simp), Nat.add_zero]

/-- C4 counterexample to the original end-to-end store clause: from rows
`[2,0,0] / [1,0,0]`, stores `0 / 0`, ply `1`, Player One to move, the move
`Pit(1)` is accepted and its last sown stone lands in Player One's empty pit
at index 2, whose directly opposite pit (index 0 of the other row) holds 1
stone; no stone is sown into a store during the move, so the claim predicts a
returned store of `0 + (1 + 1) = 2`, but the capture empties row 1, the
end-of-board sweep then moves Player One's remaining stone into their store
as well, and the returned state has store 3. -/
theorem c4_counterexample :
    (GameState.mk [2,0,0] [1,0,0] 0 0 1 Player.one false).makeMove
        (Move.pit 1)
      = some (GameState.mk [0,0,0] [0,0,0] 3 0 2 Player.two false)
    ∧ (3 : Nat) ≠ 0 + (1 + 1) := by decide

/-- C4 (corrected): for a pit move accepted by `make_move` whose final sowing
iteration starts at configuration `(st, side, pit)` — the sowing run equals
its own last step from there — and lands the last stone in an empty pit at
`pit < pits` on the current mover's own side, the returned state has that pit
and the directly opposite pit of the other row (index `pits - pit - 1`) both
zero, and the mover's store in the returned state equals its value at the
start of the final iteration (which already includes any stones sown into the
store earlier in the move), plus the combined prior contents of the two pits
(the landed stone plus the opposite pit's stones), plus the stones the
end-of-board sweep then moves from the mover's own row when a row is left
empty — the contribution the original claim omitted. -/
theorem c4_capture_returned (s : GameState) (n : Nat) (s2 : GameState)
    (st : GameState) (side : Player) (pit : Nat) (g : Bool)
    (h : s.makeMove (Move.pit n) = some s2)
    (hsow : GameState.sow s.turn ((s.row s.turn).getD (n - 1) 0)
        (s.setRow s.turn ((s.row s.turn).set (n - 1) 0)) s.turn n false
      = GameState.sow s.turn 1 st side pit g)
    (hside : side = st.turn)
    (hpit : pit < st.pits)
    (hlen2 : st.board2.length = st.pits)
    (hempty : (st.row side).getD pit 0 = 0) :
    (s2.row side).getD pit 0 = 0
    ∧ (s2.row side.other).getD (st.pits - pit - 1) 0 = 0
    ∧ s2.store side
        = st.store side + 1
          + (st.row side.other).getD (st.pits - pit - 1) 0
          + (if (GameState.sow s.turn 1 st side pit g).1.finalRecipient
              = some side
             then ((GameState.sow s.turn 1 st side pit g).1.row side).sum
             else 0) := by
  obtain ⟨hz1, hz2, hst⟩ :=
    captureStep_spec s.turn st side pit g hside hpit hlen2 hempty
  have hsh := sow_sameShape s.turn 1 st side pit g
  have hlenR : ((GameState.sow s.turn 1 st side pit g).1.row side).length
      = (GameState.sow s.turn 1 st side pit g).1.pits := by
    cases side
    · rfl
    · exact (hsh.2.2.2.2.trans hlen2).trans (sameShape_pits hsh).symm
  simp only [GameState.makeMove] at h
  split at h
  · exact Option.noConfusion h
  · split at h
    · exact Option.noConfusion h
    · rw [Option.some_inj] at h
      rw [hsow] at h
      rw [← h]
      refine ⟨?_, ?_, ?_⟩
      · rw [completion_row]
        exact sweep_row_zero _ _ _ hz1
      · rw [completion_row]
        exact sweep_row_zero _ _ _ hz2
      · rw [completion_store, sweep_store _ _ hlenR, hst]

/-- Witness for the corrected C4 at the counterexample scenario: the final
sowing iteration starts at rows `[0,1,0] / [1,0,0]` with the last stone about
to land in Player One's empty pit 2; in the returned state
`[0,0,0] / [0,0,0]` with store 3 both pits are zero and the store satisfies
the corrected accounting `0 + 1 + 1` from the capture plus `1` from the
end-of-board sweep. -/
theorem c4_capture_returned_witness :
    ((GameState.mk [0,0,0] [0,0,0] 3 0 2 Player.two false).row
        Player.one).getD 2 0 = 0
    ∧ ((GameState.mk [0,0,0] [0,0,0] 3 0 2 Player.two false).row
        Player.one.other).getD
        ((GameState.mk [0,1,0] [1,0,0] 0 0 1 Player.one false).pits - 2 - 1)
        0 = 0
    ∧ (GameState.mk [0,0,0] [0,0,0] 3 0 2 Player.two false).store Player.one
        = (GameState.mk [0,1,0] [1,0,0] 0 0 1 Player.one false).store
            Player.one + 1
          + ((GameState.mk [0,1,0] [1,0,0] 0 0 1 Player.one false).row
              Player.one.other).getD
              ((GameState.mk [0,1,0] [1,0,0] 0 0 1 Player.one
                false).pits - 2 - 1) 0
          + (if (GameState.sow Player.one 1
                  (GameState.mk [0,1,0] [1,0,0] 0 0 1 Player.one false)
                  Player.one 2 false).1.finalRecipient = some Player.one
             then ((GameState.sow Player.one 1
                  (GameState.mk [0,1,0] [1,0,0] 0 0 1 Player.one false)
                  Player.one 2 false).1.row Player.one).sum
             else 0) :=
  c4_capture_returned
    (GameState.mk [2,0,0] [1,0,0] 0 0 1 Player.one false) 1
    (GameState.mk [0,0,0] [0,0,0] 3 0 2 Player.two false)
    (GameState.mk [0,1,0] [1,0,0] 0 0 1 Player.one false) Player.one 2 false
    (by decide) (by decide) (by decide) (by decide) (by decide) (by decide)
